import Mathlib

/-!
Shallow embedding of Kleborate's MLST assignment core
(`kleborate/mlstBLAST.py`, with the truncation-tag collaborator from
`kleborate/truncation.py` treated as an oracle), together with proofs about
the ST-assignment algorithm.

Python-specific behaviour is modelled explicitly:
* dictionaries are insertion-ordered association lists (`alookup`,
  `dictInsert`), assignment to an existing key overwrites in place;
* `int(s)` is modelled by `String.toInt?` (digits with an optional leading
  minus sign; inputs outside this fragment do not occur in the data handled
  here), raising (= `none`) on non-numeric strings;
* `s.split(sep)` is modelled character-wise (`splitChar`, `splitUU`);
* `sorted(..., key=score, reverse=True)` is a stable descending sort,
  modelled by a stable insertion sort (`pySortDesc`);
* fallible operations (list indexing, `min` of an empty list, dict lookup)
  return `Option`.
-/

namespace Kleborate

/-- Digit run accumulator for `pyInt`: all remaining characters must be
decimal digits. -/
def readDigitsAux : List Char → Nat → Option Nat
  | [], acc => some acc
  | c :: rest, acc =>
      if c.isDigit then readDigitsAux rest (acc * 10 + (c.toNat - 48)) else none

/-- Python `int(s)` on the numeric strings that occur here: an optional
leading minus sign followed by one or more decimal digits; `none` models the
ValueError on anything else. (Python additionally accepts `'+'`, surrounding
whitespace and digit-group underscores; none of those occur in the data this
program handles.) -/
def pyInt (s : String) : Option Int :=
  match s.data with
  | [] => none
  | '-' :: rest =>
      match rest with
      | [] => none
      | _ => (readDigitsAux rest 0).map (fun n => -(n : Int))
  | l => (readDigitsAux l 0).map (fun n => (n : Int))

/-- Python `s.split(c)` for a single-character separator, on character lists.
`splitChar c [] = [[]]` just as `''.split(c) == ['']`. -/
def splitChar (sep : Char) : List Char → List (List Char)
  | [] => [[]]
  | c :: rest =>
      let r := splitChar sep rest
      if c = sep then [] :: r
      else (c :: r.headD []) :: r.tail

/-- Python `s.split('__')`: split on a double underscore, leftmost,
non-overlapping. -/
def splitUU : List Char → List (List Char)
  | '_' :: '_' :: rest => [] :: splitUU rest
  | c :: rest => (c :: (splitUU rest).headD []) :: (splitUU rest).tail
  | [] => [[]]

/-- Split a string on a single-character separator (Python `s.split(c)`). -/
def pySplit (s : String) (sep : Char) : List String :=
  (splitChar sep s.data).map String.mk

/-- Python `','.join(xs)`. -/
def joinComma : List String → String
  | [] => ""
  | [s] => s
  | s :: rest => s ++ "," ++ joinComma rest

/-- Python `line.rstrip()`: drop trailing whitespace. -/
def pyRstrip (s : String) : String :=
  String.mk (s.data.reverse.dropWhile Char.isWhitespace).reverse

/-- Python `s.replace('*', '')`. -/
def removeStar (s : String) : String :=
  String.mk (s.data.filter (fun c => c ≠ '*'))

/-- Single-pass scanner for `re.sub(r'-\d+%', '', s)`: `pend = some ds`
means a `'-'` has been seen followed so far by the digits `ds` (in reverse);
a subsequent `'%'` (with at least one digit) completes a match, which is
deleted, and anything else flushes the pending characters unchanged.  A new
candidate match can only start at a later `'-'`, exactly as in the regex's
leftmost non-overlapping semantics. -/
def stripScan : List Char → Option (List Char) → List Char
  | [], none => []
  | [], some ds => '-' :: ds.reverse
  | c :: rest, none =>
      if c = '-' then stripScan rest (some [])
      else c :: stripScan rest none
  | c :: rest, some ds =>
      if c.isDigit then stripScan rest (some (c :: ds))
      else if c = '%' ∧ ds ≠ [] then stripScan rest none
      else if c = '-' then ('-' :: ds.reverse) ++ stripScan rest (some [])
      else (('-' :: ds.reverse) ++ [c]) ++ stripScan rest none

/-- Python `re.sub(r'-\d+%', '', s)` on strings: delete every occurrence of
a dash followed by one or more digits followed by a percent sign. -/
def stripTrunc (s : String) : String := String.mk (stripScan s.data none)

/-- Python `s[0]` on a string: the first character as a one-character string,
`none` (IndexError) on the empty string. -/
def pyIndex0 (s : String) : Option String :=
  match s.data with
  | [] => none
  | c :: _ => some (String.mk [c])

/-- Lookup in a Python dict modelled as an insertion-ordered association
list. -/
def alookup {β : Type} : List (String × β) → String → Option β
  | [], _ => none
  | p :: rest, k => if p.1 = k then some p.2 else alookup rest k

/-- Python `d[k] = v` on a dict modelled as an insertion-ordered association
list: overwrite in place if the key exists, otherwise append. -/
def dictInsert {β : Type} (d : List (String × β)) (k : String) (v : β) : List (String × β) :=
  if (alookup d k).isSome then d.map (fun p => if p.1 = k then (k, v) else p)
  else d ++ [(k, v)]

/-- Python `min(l)` on a list of ints: `none` (ValueError) on the empty
list. -/
def pyMinList : List Int → Option Int
  | [] => none
  | x :: xs => some (xs.foldl min x)

/-- One BLAST-style alignment hit (`run_blastn` output record). Percent
identity and score are modelled as rationals; they are only compared, never
rounded, in the code under study. -/
structure Hit where
  gene_id : String
  pcid : ℚ
  alignment_length : Int
  ref_length : Int
  score : ℚ
deriving DecidableEq, Repr

/-- `get_allele_and_locus(hit)` from mlstBLAST.py: srst2-style gene ids
(containing a double underscore) yield `components[2]` as allele and
`components[1]` as locus (IndexError, i.e. `none`, if there is no third
component); otherwise the allele is the whole gene id and the locus is its
prefix before the first underscore. -/
def get_allele_and_locus (h : Hit) : Option (String × String) :=
  if ['_', '_'] <:+: h.gene_id.data then
    let comps := (splitUU h.gene_id.data).map String.mk
    match comps[1]?, comps[2]? with
    | some locus, some allele => some (allele, locus)
    | _, _ => none
  else
    some (h.gene_id, String.mk ((splitChar '_' h.gene_id.data).headD []))

/-- The marker-appending step of `get_best_allele_per_locus`: append `*` for
an inexact match, and, when truncation checking is on, append
`truncation_check(hit)[0]` — the `[0]` indexing of the collaborator's string
result is modelled faithfully by `pyIndex0`; `trunc` is the truncation-tag
oracle. -/
def markedAllele (trunc : Hit → String) (chk : Bool) (h : Hit) (allele : String) : Option String :=
  let a1 := if h.pcid < 100 ∨ h.alignment_length < h.ref_length then allele ++ "*" else allele
  if chk then (pyIndex0 (trunc h)).map (fun t => a1 ++ t) else some a1

/-- `allele.split('_')[1]` — the number stored per locus; `none` models the
IndexError raised when the allele name has no underscore. -/
def alleleNumberOf (allele : String) : Option String :=
  ((splitChar '_' allele.data).map String.mk)[1]?

/-- The full per-hit call derivation: gene id parsing, marker appending, and
extraction of the second underscore-separated field. -/
def alleleCall (trunc : Hit → String) (chk : Bool) (h : Hit) : Option String :=
  match get_allele_and_locus h with
  | some (allele, _) =>
      match markedAllele trunc chk h allele with
      | some marked => alleleNumberOf marked
      | none => none
  | none => none

/-- One iteration of the loop in `get_best_allele_per_locus`: state is the
pair of dicts (`best_score`, `best_allele`). -/
def resolverStep (trunc : Hit → String) (chk : Bool)
    (st : List (String × ℚ) × List (String × String)) (h : Hit) :
    Option (List (String × ℚ) × List (String × String)) :=
  match get_allele_and_locus h with
  | none => none
  | some (allele, locus) =>
    match markedAllele trunc chk h allele with
    | none => none
    | some marked =>
      match alookup st.1 locus with
      | some s =>
          if h.score > s then
            match alleleNumberOf marked with
            | some call => some (dictInsert st.1 locus h.score, dictInsert st.2 locus call)
            | none => none
          else some st
      | none =>
          match alleleNumberOf marked with
          | some call => some (dictInsert st.1 locus h.score, dictInsert st.2 locus call)
          | none => none

/-- The loop of `get_best_allele_per_locus` over all hits. -/
def resolverLoop (trunc : Hit → String) (chk : Bool) :
    List Hit → List (String × ℚ) × List (String × String) →
    Option (List (String × ℚ) × List (String × String))
  | [], st => some st
  | h :: t, st =>
      match resolverStep trunc chk st h with
      | some st1 => resolverLoop trunc chk t st1
      | none => none

/-- `get_best_allele_per_locus(hits, check_for_truncation)`: the final
`best_allele` dict. -/
def get_best_allele_per_locus (trunc : Hit → String) (hits : List Hit) (chk : Bool) :
    Option (List (String × String)) :=
  (resolverLoop trunc chk hits ([], [])).map Prod.snd

/-- `hits_per_locus[locus].append(hit)` on the defaultdict of
`keep_only_one_hit_per_locus`. -/
def groupInsert (d : List (String × List Hit)) (k : String) (h : Hit) : List (String × List Hit) :=
  match alookup d k with
  | some _ => d.map (fun p => if p.1 = k then (p.1, p.2 ++ [h]) else p)
  | none => d ++ [(k, [h])]

/-- The grouping loop of `keep_only_one_hit_per_locus`. -/
def groupLoop : List Hit → List (String × List Hit) → Option (List (String × List Hit))
  | [], d => some d
  | h :: t, d =>
      match get_allele_and_locus h with
      | some (_, locus) => groupLoop t (groupInsert d locus h)
      | none => none

/-- Stable insertion preserving input order among equal scores: used to model
Python's stable `sorted(..., key=lambda x: x.score, reverse=True)`. -/
def insertDesc (h : Hit) : List Hit → List Hit
  | [] => [h]
  | x :: xs => if h.score ≥ x.score then h :: x :: xs else x :: insertDesc h xs

/-- Python `sorted(locus_hits, key=lambda x: x.score, reverse=True)` — a
stable descending sort by score. -/
def pySortDesc : List Hit → List Hit
  | [] => []
  | x :: xs => insertDesc x (pySortDesc xs)

/-- For each locus group, `sorted(locus_hits, ...)[0]` collected in group
order. -/
def sortedHeads : List (String × List Hit) → Option (List Hit)
  | [] => some []
  | p :: rest =>
      match (pySortDesc p.2).head? with
      | some best_hit => (sortedHeads rest).map (best_hit :: ·)
      | none => none

/-- `keep_only_one_hit_per_locus(hits)`. -/
def keep_only_one_hit_per_locus (hits : List Hit) : Option (List Hit) :=
  match groupLoop hits [] with
  | some d => sortedHeads d
  | none => none

/-- `sum(map(lambda x, y: bool(int(x)-int(y)), xs, ys))`: the locus-mismatch
distance of `get_closest_locus_variant`; Python's two-list `map` stops at the
shorter list; `none` models the ValueError of `int` on a non-numeric entry. -/
def profileDist : List String → List String → Option Nat
  | x :: xs, y :: ys =>
      match pyInt x, pyInt y with
      | some a, some b =>
          match profileDist xs ys with
          | some r => some ((if a - b ≠ 0 then 1 else 0) + r)
          | none => none
      | _, _ => none
  | _, _ => some 0

/-- The first loop of `get_closest_locus_variant`: substitute `'0'` for `'-'`
entries of the query. -/
def queryOf (query : List String) : List String :=
  query.map (fun item => if item = "-" then "0" else item)

/-- The second loop of `get_closest_locus_variant`: strip truncation tags,
and force entries that were `'-'` or contained `'*'` to `'0'`. -/
def annotatedOf (annotated_query : List String) : List String :=
  annotated_query.map (fun item =>
    if item = "-" ∨ '*' ∈ item.data then "0" else stripTrunc item)

/-- Mutable state of the ST loop in `get_closest_locus_variant`. -/
structure GclvState where
  closest : List Int
  closestAlleles : List (String × String)
  minDist : Nat
deriving Repr

/-- One iteration of the `for st in sts` loop of
`get_closest_locus_variant`: `pr.1` is the comma-joined profile key, `pr.2`
the ST id. -/
def gclvStep (q : List String) (s : GclvState) (pr : String × String) : Option GclvState :=
  match profileDist (pySplit pr.1 ',') q with
  | none => none
  | some d =>
      if d = s.minDist then
        match pyInt pr.2 with
        | some n =>
            some ⟨s.closest ++ [n], dictInsert s.closestAlleles pr.2 pr.1, s.minDist⟩
        | none => none
      else if d < s.minDist then
        match pyInt pr.2 with
        | some n => some ⟨[n], dictInsert s.closestAlleles pr.2 pr.1, d⟩
        | none => none
      else some s

/-- The `for st in sts` loop of `get_closest_locus_variant`, iterating the
dict in insertion order. -/
def gclvLoop (q : List String) : List (String × String) → GclvState → Option GclvState
  | [], s => some s
  | pr :: rest, s =>
      match gclvStep q s pr with
      | some s1 => gclvLoop q rest s1
      | none => none

/-- `get_closest_locus_variant(query, annotated_query, sts)`: returns
`(closest_st, min_dist, min_dist_incl_snps)`; `none` models the exceptions
(ValueError from `int`, `min` of an empty list, KeyError). -/
def get_closest_locus_variant (query annotated_query : List String)
    (sts : List (String × String)) : Option (String × Nat × Nat) :=
  match gclvLoop (queryOf query) sts ⟨[], [], query.length⟩ with
  | none => none
  | some s =>
      match pyMinList s.closest with
      | none => none
      | some mn =>
          let closest_st := toString mn
          match alookup s.closestAlleles closest_st with
          | none => none
          | some p =>
              match profileDist (pySplit p ',') (annotatedOf annotated_query) with
              | none => none
              | some m2 => some (closest_st, s.minDist, m2)

/-- Accumulated per-locus results of the `for locus in header` loop of
`mlst_blast`. -/
structure ProfileAcc where
  best_st : List String
  best_st_annotated : List String
  mismatch : Nat
  missing : Nat
deriving Repr, DecidableEq

/-- The `for locus in header` loop of `mlst_blast`: build `best_st` and
`best_st_annotated` and count `mismatch_loci_including_snps` /
`missing_loci`. -/
def bestSTLists (best_allele : List (String × String)) : List String → ProfileAcc
  | [] => ⟨[], [], 0, 0⟩
  | locus :: rest =>
      let r := bestSTLists best_allele rest
      match alookup best_allele locus with
      | some allele =>
          ⟨stripTrunc (removeStar allele) :: r.best_st, allele :: r.best_st_annotated,
           (if '*' ∈ allele.data then 1 else 0) + r.mismatch, r.missing⟩
      | none =>
          ⟨"-" :: r.best_st, "-" :: r.best_st_annotated, 1 + r.mismatch, 1 + r.missing⟩

/-- The ST-lookup phase of `mlst_blast` (lines 75–86): acceptance gate 1,
exact lookup, nearest-variant search; returns the ST label and the (possibly
recomputed) `mismatch_loci_including_snps`. -/
def lookupStep (best_st best_st_annotated : List String) (alleles_to_st : List (String × String))
    (mm0 : Nat) (max_missing : Int) : Option (String × Nat) :=
  if (mm0 : Int) ≤ max_missing then
    match alookup alleles_to_st (joinComma best_st) with
    | some st => some (st, mm0)
    | none =>
        match get_closest_locus_variant best_st best_st_annotated alleles_to_st with
        | some r => some (r.1, r.2.2)
        | none => none
  else some ("0", mm0)

/-- The ST-assignment phase of `mlst_blast` (lines 49–102), from the
`best_allele` dict on: profile accumulation, gates 1 and 2, info lookup, and
LV-suffix formatting. Returns `(bst, best_st_annotated, info_final)`. -/
def assignST (header : List String) (best_allele : List (String × String))
    (alleles_to_st st_to_info : List (String × String)) (max_missing : Int)
    (info_arg : String) (report_incomplete : Bool) : Option (String × List String × String) :=
  let acc := bestSTLists best_allele header
  match lookupStep acc.best_st acc.best_st_annotated alleles_to_st acc.mismatch max_missing with
  | none => none
  | some (bst1, mm1) =>
      let required_exact_matches : Int := ((header.length / 2 : Nat) : Int)
      let exact_matches : Int := (acc.best_st.length : Int) - (mm1 : Int)
      let bst2 := if exact_matches < required_exact_matches then "0" else bst1
      let info_final :=
        if info_arg = "yes" then
          match alookup st_to_info bst2 with
          | some t =>
              if report_incomplete ∧ 0 < acc.missing then t ++ " (incomplete)" else t
          | none => ""
        else ""
      let bst := if 0 < mm1 ∧ bst2 ≠ "0" then bst2 ++ "-" ++ toString mm1 ++ "LV" else bst2
      some (bst, acc.best_st_annotated, info_final)

/-- `mlst_blast` from the hit list on (the aligner call and file handling are
external): optional hit reduction, allele resolution, ST assignment. -/
def mlst_blast_model (trunc : Hit → String) (header : List String)
    (alleles_to_st st_to_info : List (String × String)) (hits : List Hit)
    (max_missing : Int) (info_arg : String)
    (check_for_truncation report_incomplete allow_multiple : Bool) :
    Option (String × List String × String) :=
  match (if allow_multiple then some hits else keep_only_one_hit_per_locus hits) with
  | none => none
  | some hits2 =>
      match get_best_allele_per_locus trunc hits2 check_for_truncation with
      | some best_allele =>
          assignST header best_allele alleles_to_st st_to_info max_missing info_arg
            report_incomplete
      | none => none

/-- Result of `load_st_database`. -/
structure DbAcc where
  st_names : List String
  alleles_to_st : List (String × String)
  st_to_info : List (String × String)
  header : List String
deriving Repr

/-- One line of `load_st_database`: header handling (note that the header is
re-read while it is empty, exactly as in the source's `len(header) == 0`
test), then data rows; `none` models IndexError from `pop()` on an empty
list. -/
def loadLine (info_arg : String) (acc : DbAcc) (line : String) : Option DbAcc :=
  let fields := (splitChar '\t' (pyRstrip line).data).map String.mk
  if acc.header.isEmpty then
    let h1 := fields.drop 1
    if info_arg = "yes" then
      match h1 with
      | [] => none
      | _ => some { acc with header := h1.dropLast }
    else some { acc with header := h1 }
  else
    match fields with
    | [] => none
    | st :: rest =>
        if info_arg = "yes" then
          match rest with
          | [] => none
          | r :: rs =>
              let info := (r :: rs).getLast (by simp)
              let fields2 := (r :: rs).dropLast
              some { acc with
                       st_names := acc.st_names ++ [st]
                       alleles_to_st := dictInsert acc.alleles_to_st (joinComma fields2) st
                       st_to_info := dictInsert acc.st_to_info st info }
        else
          some { acc with
                   st_names := acc.st_names ++ [st]
                   alleles_to_st := dictInsert acc.alleles_to_st (joinComma rest) st }

/-- The line loop of `load_st_database`. -/
def loadLoop (info_arg : String) : List String → DbAcc → Option DbAcc
  | [], acc => some acc
  | line :: rest, acc =>
      match loadLine info_arg acc line with
      | some acc1 => loadLoop info_arg rest acc1
      | none => none

/-- `load_st_database(database, info_arg)` on the list of lines of the
database file. -/
def load_st_database (lines : List String) (info_arg : String) : Option DbAcc :=
  loadLoop info_arg lines ⟨[], [], [], []⟩

/-- Decidable form of "this ST id is a canonically printed integer", i.e.
`str(int(s)) == s`; ids in real profile databases are of this shape. -/
def isCanonId (s : String) : Bool :=
  match pyInt s with
  | some n => toString n == s
  | none => false

/-- The locus a hit belongs to, when its gene id parses. -/
def locusOf (h : Hit) : Option String := (get_allele_and_locus h).map Prod.snd

/-- The subsequence of hits at a given locus (proof abstraction for relating
the hit reducer and the allele resolver). -/
def filterLocus (hits : List Hit) (L : String) : List Hit :=
  hits.filter (fun h => decide (locusOf h = some L))

/-- First-strict-improvement selection: the hit kept by the resolver's
strict-`>` best-score tracking, and equally the head of a stable descending
sort. -/
def bestOf : Hit → List Hit → Hit
  | b, [] => b
  | b, x :: xs => bestOf (if x.score > b.score then x else b) xs

/-- Single-locus restriction of the resolver loop (proof abstraction): the
state is the current `(best_score, best_allele)` entry of one locus. -/
def runL (trunc : Hit → String) (chk : Bool) :
    Option (ℚ × String) → List Hit → Option (Option (ℚ × String))
  | cur, [] => some cur
  | cur, h :: t =>
      match get_allele_and_locus h with
      | none => none
      | some (allele, _) =>
          match markedAllele trunc chk h allele with
          | none => none
          | some marked =>
              match cur with
              | some (s, c) =>
                  if h.score > s then
                    match alleleNumberOf marked with
                    | some call => runL trunc chk (some (h.score, call)) t
                    | none => none
                  else runL trunc chk (some (s, c)) t
              | none =>
                  match alleleNumberOf marked with
                  | some call => runL trunc chk (some (h.score, call)) t
                  | none => none

/-- The combined `(best_score, best_allele)` entry of one locus. -/
def pairOf (bs : List (String × ℚ)) (ba : List (String × String)) (L : String) :
    Option (ℚ × String) :=
  match alookup bs L, alookup ba L with
  | some s, some c => some (s, c)
  | _, _ => none

/-- How one locus entry of the grouping dict evolves over a run of the
grouping loop: appended to if present, created exactly when the locus
occurs (proof abstraction for `keep_only_one_hit_per_locus`). -/
def optGroup : Option (List Hit) → List Hit → Option (List Hit)
  | some g, f => some (g ++ f)
  | none, [] => none
  | none, f => some f

/-- The hit the reducer keeps out of one locus group (proof abstraction):
the first maximal-score member, i.e. `sorted(...)[0]`. -/
def bestGroup : Option (List Hit) → List Hit
  | some (h :: t) => [bestOf h t]
  | _ => []

/-!
## Claims C1 and C2: the two acceptance gates
-/

/-- C1: whenever the count of missing-or-inexact loci
(`mismatch_loci_including_snps` as accumulated by the header loop) exceeds
the caller-supplied `max_missing` threshold, `mlst_blast` assigns the label
`"0"` without any exact or nearest-variant lookup — the result is `some "0"`
for every `alleles_to_st` database, with no LV suffix. -/
theorem claim_C1_gate1_forces_zero (header : List String)
    (ba alleles_to_st st_to_info : List (String × String)) (max_missing : Int)
    (info_arg : String) (report_incomplete : Bool)
    (h : max_missing < ((bestSTLists ba header).mismatch : Int)) :
    (assignST header ba alleles_to_st st_to_info max_missing info_arg
        report_incomplete).map Prod.fst = some "0" := by
  simp only [assignST]
  have hstep : lookupStep (bestSTLists ba header).best_st
      (bestSTLists ba header).best_st_annotated alleles_to_st
      (bestSTLists ba header).mismatch max_missing
      = some ("0", (bestSTLists ba header).mismatch) := by
    unfold lookupStep
    rw [if_neg (by omega)]
  rw [hstep]
  simp

/-- Witness for C1 at a concrete input: one locus, no hit for it,
`max_missing = 0`. -/
theorem claim_C1_witness :
    (0 : Int) < ((bestSTLists [] ["gapA"]).mismatch : Int) ∧
    (assignST ["gapA"] [] [("1", "258")] [] 0 "no" false).map Prod.fst = some "0" :=
  ⟨by decide, claim_C1_gate1_forces_zero ["gapA"] [] [("1", "258")] [] 0 "no" false (by decide)⟩

/-- C2: letting `exact_matches = len(best_st) - mismatch_loci_including_snps`
(with the mismatch count as recomputed by the lookup phase, i.e. the second
component returned by `lookupStep`), if `exact_matches` is below
`int(len(header)/2)` then the returned label is `"0"`, even when the exact
lookup of step 3 succeeded. -/
theorem claim_C2_gate2_forces_zero (header : List String)
    (ba alleles_to_st st_to_info : List (String × String)) (max_missing : Int)
    (info_arg : String) (report_incomplete : Bool) (bst1 : String) (mm1 : Nat)
    (hstep : lookupStep (bestSTLists ba header).best_st
      (bestSTLists ba header).best_st_annotated alleles_to_st
      (bestSTLists ba header).mismatch max_missing = some (bst1, mm1))
    (hlow : ((bestSTLists ba header).best_st.length : Int) - (mm1 : Int)
      < ((header.length / 2 : Nat) : Int)) :
    (assignST header ba alleles_to_st st_to_info max_missing info_arg
        report_incomplete).map Prod.fst = some "0" := by
  simp only [assignST]
  rw [hstep]
  simp only [Option.map_some]
  rw [if_pos hlow]
  simp

/-- Witness for C2 at a concrete input: two loci, both inexact (`*`), whose
stripped profile matches ST `"7"` exactly — yet `exact_matches = 0 < 1 =
floor(2/2)` forces `"0"` despite the successful exact lookup. -/
theorem claim_C2_witness :
    lookupStep (bestSTLists [("gapA", "5*"), ("infB", "6*")] ["gapA", "infB"]).best_st
      (bestSTLists [("gapA", "5*"), ("infB", "6*")] ["gapA", "infB"]).best_st_annotated
      [("5,6", "7")]
      (bestSTLists [("gapA", "5*"), ("infB", "6*")] ["gapA", "infB"]).mismatch 5
      = some ("7", 2) ∧
    (assignST ["gapA", "infB"] [("gapA", "5*"), ("infB", "6*")] [("5,6", "7")] [] 5 "no"
        false).map Prod.fst = some "0" :=
  ⟨by decide,
   claim_C2_gate2_forces_zero ["gapA", "infB"] [("gapA", "5*"), ("infB", "6*")] [("5,6", "7")]
     [] 5 "no" false "7" 2 (by decide) (by decide)⟩

/-!
## Claim C7: the truncation tag appended by the resolver
-/

/-- C7 (evidence of the divergence): with truncation checking enabled the
resolver appends `truncation_check(hit)[0]`, not the whole tag.  At a
concrete full-length exact hit, a collaborator tag of `"-70%"` yields the
recorded call `"5-"` (only the first character `'-'` of the tag was
appended), and a collaborator tag of `""` (= hit not truncated) makes the
resolver raise (IndexError on `''[0]`) instead of appending nothing. -/
theorem claim_C7_trunc_tag_first_char_only :
    get_best_allele_per_locus (fun _ => "-70%") [⟨"gapA_5", 100, 10, 10, 1⟩] true
      = some [("gapA", "5-")] ∧
    get_best_allele_per_locus (fun _ => "") [⟨"gapA_5", 100, 10, 10, 1⟩] true = none :=
  ⟨by decide, by decide⟩

/-!
## Claim C8: the info string
-/

/-- C8 (counterexample to the claim as stated): a database that registers an
ST with id `"0"` and annotation `"CC1"` produces a non-empty info string for
the unassignable label `"0"` — the code guards the info lookup with
`bst in st_to_info`, not with `bst != '0'`. -/
theorem claim_C8_counterexample :
    assignST ["gapA"] [] [("9", "0")] [("0", "CC1")] 0 "yes" true
      = some ("0", ["-"], "CC1 (incomplete)") := by decide

/-- C8 (amended): the info string is non-empty only when an info column was
configured (`info_arg = "yes"`) and the info table maps the assigned
(pre-LV-suffix) ST; that ST is distinct from `"0"` whenever the database
registers no ST with id `"0"`.  When produced, the info string is the ST's
annotated text with `" (incomplete)"` appended exactly when incomplete
reporting was requested and `missing_loci > 0`. -/
theorem claim_C8_info_nonempty_conditions (header : List String)
    (ba alleles_to_st st_to_info : List (String × String)) (max_missing : Int)
    (info_arg : String) (report_incomplete : Bool) (out : String × List String × String)
    (hrun : assignST header ba alleles_to_st st_to_info max_missing info_arg
      report_incomplete = some out)
    (hne : out.2.2 ≠ "") :
    info_arg = "yes" ∧
    ∃ st t, alookup st_to_info st = some t ∧
      (alookup st_to_info "0" = none → st ≠ "0") ∧
      out.2.2 = t ++ (if report_incomplete ∧ 0 < (bestSTLists ba header).missing
        then " (incomplete)" else "") ∧
      (out.1 = st ∨ ∃ n : Nat, 0 < n ∧ out.1 = st ++ "-" ++ toString n ++ "LV") := by
  simp only [assignST] at hrun
  cases hLS : lookupStep (bestSTLists ba header).best_st
      (bestSTLists ba header).best_st_annotated alleles_to_st
      (bestSTLists ba header).mismatch max_missing with
  | none => rw [hLS] at hrun; exact absurd hrun (by simp)
  | some pr =>
      obtain ⟨bst1, mm1⟩ := pr
      rw [hLS] at hrun
      simp only [Option.some.injEq] at hrun
      subst hrun
      by_cases hia : info_arg = "yes"
      · refine ⟨hia, ?_⟩
        simp only [hia, if_pos rfl] at hne ⊢
        set bst2 := if ((bestSTLists ba header).best_st.length : Int) - (mm1 : Int)
            < ((header.length / 2 : Nat) : Int) then "0" else bst1 with hbst2
        cases halo : alookup st_to_info bst2 with
        | none => simp only [halo] at hne; exact absurd rfl hne
        | some t =>
            refine ⟨bst2, t, halo, ?_, ?_, ?_⟩
            · intro h0 hz
              rw [hz] at halo
              rw [h0] at halo
              exact absurd halo (by simp)
            · simp only [halo, if_pos trivial]
              by_cases hp : report_incomplete = true ∧ 0 < (bestSTLists ba header).missing
              · rw [if_pos hp, if_pos hp]
              · rw [if_neg hp, if_neg hp]
                simp
            · by_cases hlv : 0 < mm1 ∧ bst2 ≠ "0"
              · exact Or.inr ⟨mm1, hlv.1, by simp only [if_pos hlv]⟩
              · exact Or.inl (by simp only [if_neg hlv])
      · simp only [if_neg hia] at hne
        exact absurd rfl hne

/-- Witness for the amended C8 at a concrete input with a non-empty info
string. -/
theorem claim_C8_witness :
    "yes" = "yes" ∧
    ∃ st t, alookup [("10", "CC1")] st = some t ∧
      (alookup [("10", "CC1")] "0" = none → st ≠ "0") ∧
      (("10", ["5"], "CC1") : String × List String × String).2.2
        = t ++ (if False ∧ 0 < (bestSTLists [("gapA", "5")] ["gapA"]).missing
            then " (incomplete)" else "") ∧
      ((("10", ["5"], "CC1") : String × List String × String).1 = st ∨
        ∃ n : Nat, 0 < n ∧
          (("10", ["5"], "CC1") : String × List String × String).1
            = st ++ "-" ++ toString n ++ "LV") := by
  have := claim_C8_info_nonempty_conditions ["gapA"] [("gapA", "5")] [("5", "10")]
    [("10", "CC1")] 0 "yes" false ("10", ["5"], "CC1") (by decide) (by decide)
  simpa using this

/-!
## Claim C10: the per-locus call is the second underscore-separated field
-/

/-- The character-wise split always produces at least one piece. -/
theorem splitChar_ne_nil (sep : Char) (l : List Char) : splitChar sep l ≠ [] := by
  cases l with
  | nil => simp [splitChar]
  | cons c rest =>
      simp only [splitChar]
      split <;> simp

/-- An optional index read succeeds exactly when the index is in range. -/
theorem isSome_getElem?_iff {α : Type} (l : List α) (i : Nat) :
    l[i]?.isSome = true ↔ i < l.length := by
  rw [Option.isSome_iff_exists]
  constructor
  · rintro ⟨a, ha⟩
    exact (List.getElem?_eq_some.mp ha).1
  · intro h
    exact ⟨l[i], List.getElem?_eq_getElem h⟩

/-- The split has a second piece exactly when the separator occurs. -/
theorem two_le_length_splitChar_iff (sep : Char) (l : List Char) :
    2 ≤ (splitChar sep l).length ↔ sep ∈ l := by
  induction l with
  | nil => simp [splitChar]
  | cons c rest ih =>
      simp only [splitChar, List.mem_cons]
      by_cases hc : c = sep
      · rw [if_pos hc]
        have := splitChar_ne_nil sep rest
        simp only [List.length_cons]
        constructor
        · intro _; exact Or.inl (hc.symm)
        · intro _
          have hpos : 0 < (splitChar sep rest).length := List.length_pos.mpr this
          omega
      · rw [if_neg hc]
        have hnn := splitChar_ne_nil sep rest
        have hpos : 0 < (splitChar sep rest).length := List.length_pos.mpr hnn
        have hlen : ((c :: (splitChar sep rest).headD []) :: (splitChar sep rest).tail).length
            = (splitChar sep rest).length := by
          simp only [List.length_cons, List.length_tail]
          omega
        rw [hlen, ih]
        constructor
        · intro hm; exact Or.inr hm
        · rintro (h1 | h2)
          · exact absurd h1.symm hc
          · exact h2

/-- C10: the resolver stores, for a hit's locus, the second
underscore-separated field of the marked allele name (markers included), and
this is defined exactly when the marked allele name contains an underscore —
otherwise the resolver raises (IndexError), modelled by `none`. -/
theorem claim_C10_call_is_second_field (trunc : Hit → String) (chk : Bool) (h : Hit)
    (allele locus marked : String)
    (hgal : get_allele_and_locus h = some (allele, locus))
    (hmark : markedAllele trunc chk h allele = some marked) :
    get_best_allele_per_locus trunc [h] chk
      = (alleleNumberOf marked).map (fun call => [(locus, call)]) ∧
    ((alleleNumberOf marked).isSome ↔ '_' ∈ marked.data) := by
  constructor
  · simp only [get_best_allele_per_locus, resolverLoop, resolverStep, hgal, hmark]
    simp only [alookup]
    cases hnum : alleleNumberOf marked with
    | none => simp
    | some call => simp [resolverLoop, dictInsert, alookup]
  · rw [alleleNumberOf, List.getElem?_map]
    have hiff : (splitChar '_' marked.data)[1]?.isSome ↔ '_' ∈ marked.data := by
      simp only [isSome_getElem?_iff]
      constructor
      · intro h1
        exact (two_le_length_splitChar_iff '_' marked.data).mp (by omega)
      · intro hm
        have h2 := (two_le_length_splitChar_iff '_' marked.data).mpr hm
        omega
    rw [← hiff]
    cases (splitChar '_' marked.data)[1]? <;> simp

/-- Witness for C10 at a concrete hit whose allele name `gapA_5` contains an
underscore. -/
theorem claim_C10_witness :
    (get_best_allele_per_locus (fun _ => "") [⟨"gapA_5", 100, 10, 10, 1⟩] false
      = (alleleNumberOf "gapA_5").map (fun call => [("gapA", call)]) ∧
    ((alleleNumberOf "gapA_5").isSome ↔ '_' ∈ "gapA_5".data)) :=
  claim_C10_call_is_second_field (fun _ => "") false ⟨"gapA_5", 100, 10, 10, 1⟩
    "gapA_5" "gapA" "gapA_5" (by decide) (by decide)

/-!
## Claim C5: round-trip through the loaded database
-/

/-- Removing `'*'` is the identity on strings without a star. -/
theorem removeStar_eq_self (s : String) (h : '*' ∉ s.data) : removeStar s = s := by
  have hf : s.data.filter (fun c => decide (c ≠ '*')) = s.data := by
    apply List.filter_eq_self.mpr
    intro c hc
    simp only [ne_eq, decide_eq_true_eq]
    exact fun he => h (he ▸ hc)
  unfold removeStar
  rw [hf]

/-- The header loop only inspects `best_allele` through lookups at header
loci. -/
theorem bestSTLists_congr (ba ba' : List (String × String)) (header : List String)
    (h : ∀ l ∈ header, alookup ba l = alookup ba' l) :
    bestSTLists ba header = bestSTLists ba' header := by
  induction header with
  | nil => rfl
  | cons locus rest ih =>
      simp only [bestSTLists]
      rw [h locus (by simp), ih (fun l hl => h l (by simp [hl]))]

/-- Feeding a clean profile row back through the header loop reproduces the
row with zero mismatch and zero missing counts. -/
theorem bestSTLists_self (header row : List String) (hnd : header.Nodup)
    (hlen : row.length = header.length)
    (hclean : ∀ a ∈ row, '*' ∉ a.data ∧ stripTrunc a = a) :
    bestSTLists (header.zip row) header = ⟨row, row, 0, 0⟩ := by
  induction header generalizing row with
  | nil =>
      cases row with
      | nil => rfl
      | cons a as => simp at hlen
  | cons L hs ih =>
      cases row with
      | nil => simp at hlen
      | cons a as =>
          obtain ⟨hcl1, hcl2⟩ := hclean a (by simp)
          have hnotin : L ∉ hs := (List.nodup_cons.mp hnd).1
          have hnd' := (List.nodup_cons.mp hnd).2
          have hlen' : as.length = hs.length := by simpa using hlen
          have hcongr : bestSTLists ((L, a) :: hs.zip as) hs = bestSTLists (hs.zip as) hs := by
            apply bestSTLists_congr
            intro l hl
            have hLl : L ≠ l := fun he => hnotin (he ▸ hl)
            simp [alookup, hLl]
          simp only [List.zip_cons_cons, bestSTLists]
          rw [show alookup ((L, a) :: hs.zip as) L = some a by simp [alookup]]
          rw [hcongr, ih as hnd' hlen' (fun x hx => hclean x (by simp [hx]))]
          dsimp only
          rw [if_neg hcl1, removeStar_eq_self a hcl1, hcl2]

/-- C5 (counterexample to the claim as stated): in a database whose two rows
`1` and `2` carry the same allele profile `5`, the later row overwrites the
exact-lookup entry, so looking up ST `1`'s own profile returns `2`. -/
theorem claim_C5_counterexample :
    (load_st_database ["ST	abcZ", "1	5", "2	5"] "no").map DbAcc.st_names
      = some ["1", "2"] ∧
    ((load_st_database ["ST	abcZ", "1	5", "2	5"] "no").bind
      (fun db => assignST db.header [("abcZ", "5")] db.alleles_to_st db.st_to_info 3 "no"
        false)).map Prod.fst = some "2" :=
  ⟨by rfl, by decide⟩

/-- C5 (amended): for every loaded database, every clean profile row (one
plain allele per locus, no `'*'`, no truncation tag, distinct header loci)
that the exact-lookup table maps to ST `s` — in particular any listed ST's
own row when no later row repeats its profile — is assigned exactly the
label `s`, with `mismatch_loci_including_snps = 0` and hence no LV
suffix. -/
theorem claim_C5_roundtrip (lines : List String) (ia0 : String) (db : DbAcc)
    (row : List String) (s : String) (max_missing : Int) (info_arg : String)
    (report_incomplete : Bool)
    (hload : load_st_database lines ia0 = some db)
    (hrow : alookup db.alleles_to_st (joinComma row) = some s)
    (hnd : db.header.Nodup) (hlen : row.length = db.header.length)
    (hclean : ∀ a ∈ row, '*' ∉ a.data ∧ stripTrunc a = a)
    (hmm : 0 ≤ max_missing) :
    lookupStep row row db.alleles_to_st 0 max_missing = some (s, 0) ∧
    (assignST db.header (db.header.zip row) db.alleles_to_st db.st_to_info max_missing
        info_arg report_incomplete).map Prod.fst = some s := by
  have hacc := bestSTLists_self db.header row hnd hlen hclean
  have hstep : lookupStep row row db.alleles_to_st 0 max_missing = some (s, 0) := by
    unfold lookupStep
    rw [if_pos (by exact_mod_cast hmm), hrow]
  refine ⟨hstep, ?_⟩
  simp only [assignST, hacc]
  rw [hstep]
  dsimp only
  have hreq : ¬ (((row.length : Int) - ((0 : Nat) : Int))
      < ((db.header.length / 2 : Nat) : Int)) := by
    have hd2 := Nat.div_le_self db.header.length 2
    rw [hlen]
    push_cast
    omega
  rw [if_neg hreq]
  simp

/-- Witness for the amended C5 on a concrete loaded two-locus database. -/
theorem claim_C5_witness :
    lookupStep ["5", "6"] ["5", "6"] [("5,6", "10")] 0 3 = some ("10", 0) ∧
    (assignST ["gapA", "infB"] (["gapA", "infB"].zip ["5", "6"]) [("5,6", "10")]
        [("10", "CC1")] 3 "yes" false).map Prod.fst = some "10" :=
  claim_C5_roundtrip ["ST\tgapA\tinfB\tinfo", "10\t5\t6\tCC1"] "yes"
    ⟨["10"], [("5,6", "10")], [("10", "CC1")], ["gapA", "infB"]⟩ ["5", "6"] "10" 3 "yes" false
    (by rfl) (by decide) (by decide) (by decide) (by decide) (by decide)

/-!
## Lemmas on dict operations and `min`
-/

/-- A successful lookup exhibits a member of the association list. -/
theorem alookup_mem {β : Type} (d : List (String × β)) (k : String) (v : β)
    (h : alookup d k = some v) : (k, v) ∈ d := by
  induction d with
  | nil => simp [alookup] at h
  | cons p rest ih =>
      by_cases hp : p.1 = k
      · simp only [alookup, if_pos hp, Option.some.injEq] at h
        have hp2 : p = (k, v) := by
          obtain ⟨p1, p2⟩ := p
          simp only at hp h
          rw [hp, h]
        rw [← hp2]
        exact List.mem_cons_self _ _
      · simp only [alookup, if_neg hp] at h
        exact List.mem_cons_of_mem _ (ih h)

/-- Members of an updated dict are the new pair or old members. -/
theorem dictInsert_mem {β : Type} (d : List (String × β)) (k : String) (v : β)
    (e : String × β) (h : e ∈ dictInsert d k v) : e ∈ d ∨ e = (k, v) := by
  unfold dictInsert at h
  by_cases hs : (alookup d k).isSome
  · rw [if_pos hs] at h
    obtain ⟨p, hp, he⟩ := List.mem_map.mp h
    by_cases hpk : p.1 = k
    · rw [if_pos hpk] at he
      exact Or.inr he.symm
    · rw [if_neg hpk] at he
      exact Or.inl (he ▸ hp)
  · rw [if_neg hs] at h
    rcases List.mem_append.mp h with h1 | h2
    · exact Or.inl h1
    · exact Or.inr (List.mem_singleton.mp h2)

/-- Looking up `k` after rewriting every `k`-keyed entry to `(k, v)` yields
`v`, provided some `k` entry exists. -/
theorem alookup_map_update_self {β : Type} (d : List (String × β)) (k : String) (v : β)
    (hs : (alookup d k).isSome) :
    alookup (d.map (fun p => if p.1 = k then (k, v) else p)) k = some v := by
  induction d with
  | nil => simp [alookup] at hs
  | cons p rest ih =>
      by_cases hp : p.1 = k
      · simp [List.map_cons, if_pos hp, alookup]
      · simp only [alookup, if_neg hp] at hs
        simp only [List.map_cons, if_neg hp, alookup, if_neg hp]
        exact ih hs

/-- Rewriting `k`-keyed entries does not affect lookups at other keys. -/
theorem alookup_map_update_ne {β : Type} (d : List (String × β)) (k k' : String) (v : β)
    (hne : k' ≠ k) :
    alookup (d.map (fun p => if p.1 = k then (k, v) else p)) k' = alookup d k' := by
  induction d with
  | nil => simp [alookup]
  | cons p rest ih =>
      by_cases hp : p.1 = k
      · have hp' : ¬ ((k : String) = k') := fun he => hne he.symm
        have hp'' : ¬ (p.1 = k') := by rw [hp]; exact hp'
        simp only [List.map_cons, if_pos hp, alookup, if_neg hp', if_neg hp'']
        exact ih
      · simp only [List.map_cons, if_neg hp, alookup]
        by_cases hpk' : p.1 = k'
        · rw [if_pos hpk', if_pos hpk']
        · rw [if_neg hpk', if_neg hpk']
          exact ih

/-- Appending a `(k, v)` entry makes `k` resolvable when it was absent. -/
theorem alookup_append_self {β : Type} (d : List (String × β)) (k : String) (v : β)
    (hs : alookup d k = none) : alookup (d ++ [(k, v)]) k = some v := by
  induction d with
  | nil => simp [alookup]
  | cons p rest ih =>
      by_cases hp : p.1 = k
      · simp [alookup, if_pos hp] at hs
      · simp only [alookup, if_neg hp] at hs
        simp only [List.cons_append, alookup, if_neg hp]
        exact ih hs

/-- Appending a `(k, v)` entry does not affect lookups at other keys. -/
theorem alookup_append_ne {β : Type} (d : List (String × β)) (k k' : String) (v : β)
    (hne : k' ≠ k) : alookup (d ++ [(k, v)]) k' = alookup d k' := by
  induction d with
  | nil =>
      have hkk : ¬ ((k : String) = k') := fun he => hne he.symm
      simp [alookup, hkk]
  | cons p rest ih =>
      by_cases hpk' : p.1 = k'
      · simp only [List.cons_append, alookup, if_pos hpk']
      · simp only [List.cons_append, alookup, if_neg hpk']
        exact ih

/-- Updating then looking up the same key yields the new value. -/
theorem alookup_dictInsert_self {β : Type} (d : List (String × β)) (k : String) (v : β) :
    alookup (dictInsert d k v) k = some v := by
  unfold dictInsert
  by_cases hs : (alookup d k).isSome
  · rw [if_pos hs]
    exact alookup_map_update_self d k v hs
  · rw [if_neg hs]
    exact alookup_append_self d k v (Option.not_isSome_iff_eq_none.mp hs)

/-- Updating one key leaves lookups of other keys unchanged. -/
theorem alookup_dictInsert_ne {β : Type} (d : List (String × β)) (k k' : String) (v : β)
    (hne : k' ≠ k) : alookup (dictInsert d k v) k' = alookup d k' := by
  unfold dictInsert
  by_cases hs : (alookup d k).isSome
  · rw [if_pos hs]
    exact alookup_map_update_ne d k k' v hne
  · rw [if_neg hs]
    exact alookup_append_ne d k k' v hne

/-- A left fold by `min` is bounded by its initial value. -/
theorem foldl_min_le_init (xs : List Int) (x : Int) : xs.foldl min x ≤ x := by
  induction xs generalizing x with
  | nil => simp
  | cons y ys ih => exact le_trans (ih (min x y)) (min_le_left x y)

/-- A left fold by `min` is bounded by every list element. -/
theorem foldl_min_le_mem (xs : List Int) (x : Int) (y : Int) (hy : y ∈ xs) :
    xs.foldl min x ≤ y := by
  induction xs generalizing x with
  | nil => simp at hy
  | cons z zs ih =>
      rcases List.mem_cons.mp hy with rfl | hz
      · exact le_trans (foldl_min_le_init zs (min x y)) (min_le_right x y)
      · exact ih (min x z) hz

/-- A left fold by `min` returns its initial value or a list element. -/
theorem foldl_min_mem (xs : List Int) (x : Int) :
    xs.foldl min x = x ∨ xs.foldl min x ∈ xs := by
  induction xs generalizing x with
  | nil => simp
  | cons y ys ih =>
      rcases ih (min x y) with h | h
      · rcases min_choice x y with hm | hm
        · exact Or.inl (by rw [List.foldl_cons, h, hm])
        · exact Or.inr (by rw [List.foldl_cons, h, hm]; simp)
      · exact Or.inr (List.mem_cons_of_mem _ h)

/-- `pyMinList` returns a member of the list. -/
theorem pyMinList_mem (l : List Int) (m : Int) (h : pyMinList l = some m) : m ∈ l := by
  cases l with
  | nil => simp [pyMinList] at h
  | cons x xs =>
      simp only [pyMinList, Option.some.injEq] at h
      subst h
      rcases foldl_min_mem xs x with h1 | h1
      · rw [h1]; exact List.mem_cons_self x xs
      · exact List.mem_cons_of_mem _ h1

/-- `pyMinList` returns a lower bound of the list. -/
theorem pyMinList_le (l : List Int) (m : Int) (h : pyMinList l = some m)
    (y : Int) (hy : y ∈ l) : m ≤ y := by
  cases l with
  | nil => simp [pyMinList] at h
  | cons x xs =>
      simp only [pyMinList, Option.some.injEq] at h
      subst h
      rcases List.mem_cons.mp hy with rfl | hz
      · exact foldl_min_le_init xs y
      · exact foldl_min_le_mem xs x y hz

/-- The locus-mismatch distance never exceeds the query length (the
two-list `map` stops at the shorter list). -/
theorem profileDist_le_length (xs ys : List String) (d : Nat)
    (h : profileDist xs ys = some d) : d ≤ ys.length := by
  induction xs generalizing ys d with
  | nil =>
      have h0 : profileDist [] ys = some 0 := rfl
      rw [h0] at h
      injection h with h
      omega
  | cons x xs ih =>
      cases ys with
      | nil =>
          have h0 : profileDist (x :: xs) [] = some 0 := rfl
          rw [h0] at h
          injection h with h
          omega
      | cons y ys =>
          simp only [profileDist] at h
          cases hx : pyInt x with
          | none => rw [hx] at h; exact absurd h (by simp)
          | some a =>
              cases hy : pyInt y with
              | none => rw [hx, hy] at h; exact absurd h (by simp)
              | some b =>
                  rw [hx, hy] at h
                  cases hr : profileDist xs ys with
                  | none => rw [hr] at h; exact absurd h (by simp)
                  | some r =>
                      rw [hr] at h
                      simp only [Option.some.injEq] at h
                      have hr2 := ih ys r hr
                      simp only [List.length_cons]
                      by_cases hab : a - b ≠ 0
                      · rw [if_pos hab] at h
                        omega
                      · rw [if_neg hab] at h
                        omega

/-!
## Invariants of the nearest-variant loop
-/

/-- Exhaustive characterization of one successful `gclvStep`. -/
theorem gclvStep_cases (q : List String) (s s1 : GclvState) (pr : String × String)
    (h : gclvStep q s pr = some s1) :
    ∃ d n, profileDist (pySplit pr.1 ',') q = some d ∧
      ((d = s.minDist ∧ pyInt pr.2 = some n ∧
          s1 = ⟨s.closest ++ [n], dictInsert s.closestAlleles pr.2 pr.1, s.minDist⟩) ∨
       (d < s.minDist ∧ pyInt pr.2 = some n ∧
          s1 = ⟨[n], dictInsert s.closestAlleles pr.2 pr.1, d⟩) ∨
       (s.minDist < d ∧ s1 = s)) := by
  unfold gclvStep at h
  cases hd : profileDist (pySplit pr.1 ',') q with
  | none => rw [hd] at h; exact absurd h (by simp)
  | some d =>
      rw [hd] at h
      dsimp only at h
      by_cases hde : d = s.minDist
      · rw [if_pos hde] at h
        cases hn : pyInt pr.2 with
        | none => rw [hn] at h; exact absurd h (by simp)
        | some n =>
            rw [hn] at h
            dsimp only at h
            simp only [Option.some.injEq] at h
            exact ⟨d, n, rfl, Or.inl ⟨hde, rfl, h.symm⟩⟩
      · rw [if_neg hde] at h
        by_cases hdlt : d < s.minDist
        · rw [if_pos hdlt] at h
          cases hn : pyInt pr.2 with
          | none => rw [hn] at h; exact absurd h (by simp)
          | some n =>
              rw [hn] at h
              dsimp only at h
              simp only [Option.some.injEq] at h
              exact ⟨d, n, rfl, Or.inr (Or.inl ⟨hdlt, rfl, h.symm⟩)⟩
        · rw [if_neg hdlt] at h
          simp only [Option.some.injEq] at h
          exact ⟨d, 0, rfl, Or.inr (Or.inr ⟨by omega, h.symm⟩)⟩

/-- A `gclvStep` succeeds on defined inputs. -/
theorem gclvStep_isSome (q : List String) (s : GclvState) (pr : String × String)
    (hd : (profileDist (pySplit pr.1 ',') q).isSome) (hn : (pyInt pr.2).isSome) :
    (gclvStep q s pr).isSome := by
  unfold gclvStep
  cases hdd : profileDist (pySplit pr.1 ',') q with
  | none => rw [hdd] at hd; exact absurd hd (by simp)
  | some d =>
      cases hnn : pyInt pr.2 with
      | none => rw [hnn] at hn; exact absurd hn (by simp)
      | some n =>
          dsimp only
          by_cases hde : d = s.minDist
          · rw [if_pos hde]
            simp
          · rw [if_neg hde]
            by_cases hdlt : d < s.minDist
            · rw [if_pos hdlt]
              simp
            · rw [if_neg hdlt]
              simp

/-- The loop succeeds when every profile distance and ST id is defined. -/
theorem gclvLoop_isSome (q : List String) (l : List (String × String)) (s : GclvState)
    (hd : ∀ pr ∈ l, (profileDist (pySplit pr.1 ',') q).isSome)
    (hn : ∀ pr ∈ l, (pyInt pr.2).isSome) :
    (gclvLoop q l s).isSome := by
  induction l generalizing s with
  | nil => simp [gclvLoop]
  | cons pr rest ih =>
      simp only [gclvLoop]
      cases hstep : gclvStep q s pr with
      | none =>
          have := gclvStep_isSome q s pr (hd pr (by simp)) (hn pr (by simp))
          rw [hstep] at this
          exact absurd this (by simp)
      | some s1 =>
          exact ih s1 (fun x hx => hd x (by simp [hx])) (fun x hx => hn x (by simp [hx]))

/-- Along the loop the running minimum only decreases, and it ends below
every processed distance. -/
theorem gclvLoop_minDist_le (q : List String) (l : List (String × String))
    (s s' : GclvState) (hrun : gclvLoop q l s = some s') :
    s'.minDist ≤ s.minDist ∧
      ∀ pr ∈ l, ∀ d, profileDist (pySplit pr.1 ',') q = some d → s'.minDist ≤ d := by
  induction l generalizing s with
  | nil =>
      simp only [gclvLoop, Option.some.injEq] at hrun
      subst hrun
      exact ⟨le_refl _, by simp⟩
  | cons pr rest ih =>
      simp only [gclvLoop] at hrun
      cases hstep : gclvStep q s pr with
      | none => rw [hstep] at hrun; exact absurd hrun (by simp)
      | some s1 =>
          rw [hstep] at hrun
          obtain ⟨ih1, ih2⟩ := ih s1 hrun
          obtain ⟨d, n, hd, hc⟩ := gclvStep_cases q s s1 pr hstep
          have hs1 : s1.minDist ≤ s.minDist ∧ s1.minDist ≤ d := by
            rcases hc with ⟨hde, _, rfl⟩ | ⟨hlt, _, rfl⟩ | ⟨hgt, rfl⟩ <;>
              constructor <;> dsimp only <;> omega
          refine ⟨le_trans ih1 hs1.1, ?_⟩
          intro pr' hpr' d' hd'
          rcases List.mem_cons.mp hpr' with rfl | hmem
          · rw [hd] at hd'
            injection hd' with hdd
            subst hdd
            omega
          · exact ih2 pr' hmem d' hd'

/-- A defined lookup stays defined across a dict update. -/
theorem alookup_dictInsert_isSome {β : Type} (d : List (String × β)) (k k' : String) (v : β)
    (h : (alookup d k).isSome) : (alookup (dictInsert d k' v) k).isSome := by
  by_cases hk : k = k'
  · subst hk
    rw [alookup_dictInsert_self]
    rfl
  · rw [alookup_dictInsert_ne d k' k v hk]
    exact h

/-- Every member of the final `closest` list either survived from the start
state at an unchanged minimum, or is the parsed id of a processed ST whose
distance equals the final minimum. -/
theorem gclvLoop_closest_origin (q : List String) (l : List (String × String))
    (s s' : GclvState) (hrun : gclvLoop q l s = some s') :
    ∀ n ∈ s'.closest,
      (n ∈ s.closest ∧ s'.minDist = s.minDist) ∨
      ∃ pr ∈ l, profileDist (pySplit pr.1 ',') q = some s'.minDist ∧ pyInt pr.2 = some n := by
  induction l generalizing s with
  | nil =>
      simp only [gclvLoop, Option.some.injEq] at hrun
      subst hrun
      exact fun n hn => Or.inl ⟨hn, rfl⟩
  | cons pr rest ih =>
      simp only [gclvLoop] at hrun
      cases hstep : gclvStep q s pr with
      | none => rw [hstep] at hrun; exact absurd hrun (by simp)
      | some s1 =>
          rw [hstep] at hrun
          obtain ⟨d, m, hd, hc⟩ := gclvStep_cases q s s1 pr hstep
          intro n hn
          rcases ih s1 hrun n hn with ⟨hn1, hm1⟩ | ⟨pr', hpr', hd', hn'⟩
          · rcases hc with ⟨hde, hm, rfl⟩ | ⟨hlt, hm, rfl⟩ | ⟨hgt, rfl⟩
            · dsimp only at hn1 hm1
              rcases List.mem_append.mp hn1 with h1 | h2
              · exact Or.inl ⟨h1, hm1⟩
              · have hnm : n = m := List.mem_singleton.mp h2
                subst hnm
                refine Or.inr ⟨pr, List.mem_cons_self _ _, ?_, hm⟩
                rw [hm1, ← hde]
                exact hd
            · dsimp only at hn1 hm1
              have hnm : n = m := List.mem_singleton.mp hn1
              subst hnm
              refine Or.inr ⟨pr, List.mem_cons_self _ _, ?_, hm⟩
              rw [hm1]
              exact hd
            · exact Or.inl ⟨hn1, hm1⟩
          · exact Or.inr ⟨pr', List.mem_cons_of_mem _ hpr', hd', hn'⟩

/-- If the minimum never improves during the remaining iterations, members
of `closest` are never discarded. -/
theorem gclvLoop_closest_persist (q : List String) (l : List (String × String))
    (s s' : GclvState) (hrun : gclvLoop q l s = some s') (hmd : s'.minDist = s.minDist) :
    ∀ n ∈ s.closest, n ∈ s'.closest := by
  induction l generalizing s with
  | nil =>
      simp only [gclvLoop, Option.some.injEq] at hrun
      subst hrun
      exact fun n hn => hn
  | cons pr rest ih =>
      simp only [gclvLoop] at hrun
      cases hstep : gclvStep q s pr with
      | none => rw [hstep] at hrun; exact absurd hrun (by simp)
      | some s1 =>
          rw [hstep] at hrun
          obtain ⟨d, m, hd, hc⟩ := gclvStep_cases q s s1 pr hstep
          rcases hc with ⟨hde, hm, rfl⟩ | ⟨hlt, hm, rfl⟩ | ⟨hgt, rfl⟩
          · intro n hn
            exact ih _ hrun hmd n (by dsimp only; exact List.mem_append_left _ hn)
          · exfalso
            have hle := (gclvLoop_minDist_le q rest _ s' hrun).1
            dsimp only at hle hmd
            omega
          · exact ih _ hrun hmd

/-- Every processed ST whose distance equals the final minimum has its
parsed id in the final `closest` list. -/
theorem gclvLoop_argmin_mem (q : List String) (l : List (String × String))
    (s s' : GclvState) (hrun : gclvLoop q l s = some s') :
    ∀ pr ∈ l, profileDist (pySplit pr.1 ',') q = some s'.minDist →
      ∃ n, pyInt pr.2 = some n ∧ n ∈ s'.closest := by
  induction l generalizing s with
  | nil => intro pr hpr; simp at hpr
  | cons pr rest ih =>
      simp only [gclvLoop] at hrun
      cases hstep : gclvStep q s pr with
      | none => rw [hstep] at hrun; exact absurd hrun (by simp)
      | some s1 =>
          rw [hstep] at hrun
          obtain ⟨d, m, hd, hc⟩ := gclvStep_cases q s s1 pr hstep
          intro pr' hpr' hd'
          rcases List.mem_cons.mp hpr' with rfl | hmem
          · rw [hd] at hd'
            injection hd' with hdd
            rcases hc with ⟨hde, hm, rfl⟩ | ⟨hlt, hm, rfl⟩ | ⟨hgt, rfl⟩
            · refine ⟨m, hm, ?_⟩
              apply gclvLoop_closest_persist q rest _ s' hrun
              · dsimp only
                omega
              · dsimp only
                exact List.mem_append_right _ (List.mem_singleton.mpr rfl)
            · refine ⟨m, hm, ?_⟩
              apply gclvLoop_closest_persist q rest _ s' hrun
              · dsimp only
                omega
              · dsimp only
                exact List.mem_singleton.mpr rfl
            · exfalso
              have hle := (gclvLoop_minDist_le q rest _ s' hrun).1
              omega
          · exact ih s1 hrun pr' hmem hd'

/-- Every entry of the final `closest_alleles` dict is an initial entry or a
processed `(id, profile)` pair. -/
theorem gclvLoop_ca_mem (q : List String) (l : List (String × String))
    (s s' : GclvState) (hrun : gclvLoop q l s = some s') :
    ∀ e ∈ s'.closestAlleles, e ∈ s.closestAlleles ∨ (e.2, e.1) ∈ l := by
  induction l generalizing s with
  | nil =>
      simp only [gclvLoop, Option.some.injEq] at hrun
      subst hrun
      exact fun e he => Or.inl he
  | cons pr rest ih =>
      simp only [gclvLoop] at hrun
      cases hstep : gclvStep q s pr with
      | none => rw [hstep] at hrun; exact absurd hrun (by simp)
      | some s1 =>
          rw [hstep] at hrun
          obtain ⟨d, m, hd, hc⟩ := gclvStep_cases q s s1 pr hstep
          intro e he
          have hca : s1.closestAlleles = dictInsert s.closestAlleles pr.2 pr.1 ∨
              s1.closestAlleles = s.closestAlleles := by
            rcases hc with ⟨_, _, rfl⟩ | ⟨_, _, rfl⟩ | ⟨_, rfl⟩
            · exact Or.inl rfl
            · exact Or.inl rfl
            · exact Or.inr rfl
          rcases ih s1 hrun e he with h1 | h2
          · rcases hca with hca | hca
            · rw [hca] at h1
              rcases dictInsert_mem _ _ _ _ h1 with h3 | h3
              · exact Or.inl h3
              · right
                rw [h3]
                exact List.mem_cons_self _ _
            · rw [hca] at h1
              exact Or.inl h1
          · exact Or.inr (List.mem_cons_of_mem _ h2)

/-- With canonically-printed ST ids, every member of the final `closest`
list can be looked up (via `str`) in the final `closest_alleles` dict. -/
theorem gclvLoop_closest_lookup (q : List String) (l : List (String × String))
    (s s' : GclvState) (hrun : gclvLoop q l s = some s')
    (hcanon : ∀ pr ∈ l, ∃ n : Int, pyInt pr.2 = some n ∧ toString n = pr.2)
    (hbase : ∀ n ∈ s.closest, (alookup s.closestAlleles (toString n)).isSome) :
    ∀ n ∈ s'.closest, (alookup s'.closestAlleles (toString n)).isSome := by
  induction l generalizing s with
  | nil =>
      simp only [gclvLoop, Option.some.injEq] at hrun
      subst hrun
      exact hbase
  | cons pr rest ih =>
      simp only [gclvLoop] at hrun
      cases hstep : gclvStep q s pr with
      | none => rw [hstep] at hrun; exact absurd hrun (by simp)
      | some s1 =>
          rw [hstep] at hrun
          obtain ⟨d, m, hd, hc⟩ := gclvStep_cases q s s1 pr hstep
          have hcanon' := fun x hx => hcanon x (List.mem_cons_of_mem _ hx)
          obtain ⟨n0, hn0, hts⟩ := hcanon pr (List.mem_cons_self _ _)
          rcases hc with ⟨hde, hm, rfl⟩ | ⟨hlt, hm, rfl⟩ | ⟨hgt, rfl⟩
          · apply ih _ hrun hcanon'
            intro n hn
            dsimp only at hn ⊢
            rcases List.mem_append.mp hn with h1 | h2
            · exact alookup_dictInsert_isSome _ _ _ _ (hbase n h1)
            · have hnm : n = m := List.mem_singleton.mp h2
              have hmn0 : n0 = m := by
                rw [hn0] at hm
                injection hm
              rw [hnm, ← hmn0, hts, alookup_dictInsert_self]
              rfl
          · apply ih _ hrun hcanon'
            intro n hn
            dsimp only at hn ⊢
            have hnm : n = m := List.mem_singleton.mp hn
            have hmn0 : n0 = m := by
              rw [hn0] at hm
              injection hm
            rw [hnm, ← hmn0, hts, alookup_dictInsert_self]
            rfl
          · exact ih _ hrun hcanon' hbase

/-- A nonempty `closest` list survives the loop. -/
theorem gclvLoop_closest_stays_nonempty (q : List String) (l : List (String × String))
    (s s' : GclvState) (hrun : gclvLoop q l s = some s') (hne : s.closest ≠ []) :
    s'.closest ≠ [] := by
  induction l generalizing s with
  | nil =>
      simp only [gclvLoop, Option.some.injEq] at hrun
      subst hrun
      exact hne
  | cons pr rest ih =>
      simp only [gclvLoop] at hrun
      cases hstep : gclvStep q s pr with
      | none => rw [hstep] at hrun; exact absurd hrun (by simp)
      | some s1 =>
          rw [hstep] at hrun
          obtain ⟨d, m, hd, hc⟩ := gclvStep_cases q s s1 pr hstep
          apply ih s1 hrun
          rcases hc with ⟨_, _, rfl⟩ | ⟨_, _, rfl⟩ | ⟨_, rfl⟩
          · dsimp only
            simp
          · dsimp only
            simp
          · exact hne

/-- Starting from the initial state (whose minimum is the query length), a
nonempty ST dict yields a nonempty final `closest` list. -/
theorem gclvLoop_closest_nonempty (q : List String) (l : List (String × String))
    (s s' : GclvState) (hrun : gclvLoop q l s = some s')
    (hinv : s.closest = [] → s.minDist = q.length)
    (hne : s.closest ≠ [] ∨ l ≠ []) : s'.closest ≠ [] := by
  cases l with
  | nil =>
      simp only [gclvLoop, Option.some.injEq] at hrun
      subst hrun
      rcases hne with h | h
      · exact h
      · exact absurd rfl h
  | cons pr rest =>
      simp only [gclvLoop] at hrun
      cases hstep : gclvStep q s pr with
      | none => rw [hstep] at hrun; exact absurd hrun (by simp)
      | some s1 =>
          rw [hstep] at hrun
          by_cases hsc : s.closest = []
          · have hmd := hinv hsc
            obtain ⟨d, m, hd, hc⟩ := gclvStep_cases q s s1 pr hstep
            have hdle : d ≤ q.length := profileDist_le_length _ _ _ hd
            rcases hc with ⟨hde, hm, rfl⟩ | ⟨hlt, hm, rfl⟩ | ⟨hgt, rfl⟩
            · apply gclvLoop_closest_stays_nonempty q rest _ s' hrun
              dsimp only
              simp
            · apply gclvLoop_closest_stays_nonempty q rest _ s' hrun
              dsimp only
              simp
            · omega
          · obtain ⟨d, m, hd, hc⟩ := gclvStep_cases q s s1 pr hstep
            apply gclvLoop_closest_stays_nonempty q rest s1 s' hrun
            rcases hc with ⟨_, _, rfl⟩ | ⟨_, _, rfl⟩ | ⟨_, rfl⟩
            · dsimp only
              simp
            · dsimp only
              simp
            · exact hsc

/-- Unfolding a canonical-id check. -/
theorem isCanonId_spec (s : String) (h : isCanonId s = true) :
    ∃ n : Int, pyInt s = some n ∧ toString n = s := by
  unfold isCanonId at h
  cases hp : pyInt s with
  | none => rw [hp] at h; exact absurd h (by simp)
  | some n =>
      rw [hp] at h
      exact ⟨n, rfl, by simpa using h⟩

/-- Decomposition of a successful `get_closest_locus_variant` run into its
loop state, chosen minimum, winning profile and recomputed distance. -/
theorem gclv_elim (query annotated_query : List String) (sts : List (String × String))
    (st : String) (md m2 : Nat)
    (h : get_closest_locus_variant query annotated_query sts = some (st, md, m2)) :
    ∃ s' mn p,
      gclvLoop (queryOf query) sts ⟨[], [], query.length⟩ = some s' ∧
      pyMinList s'.closest = some mn ∧
      st = toString mn ∧ md = s'.minDist ∧
      alookup s'.closestAlleles (toString mn) = some p ∧
      profileDist (pySplit p ',') (annotatedOf annotated_query) = some m2 := by
  unfold get_closest_locus_variant at h
  cases hloop : gclvLoop (queryOf query) sts ⟨[], [], query.length⟩ with
  | none => rw [hloop] at h; exact absurd h (by simp)
  | some s1 =>
      rw [hloop] at h
      dsimp only at h
      cases hmn : pyMinList s1.closest with
      | none => rw [hmn] at h; exact absurd h (by simp)
      | some mn =>
          rw [hmn] at h
          dsimp only at h
          cases hca : alookup s1.closestAlleles (toString mn) with
          | none => rw [hca] at h; exact absurd h (by simp)
          | some p =>
              rw [hca] at h
              dsimp only at h
              cases hm2 : profileDist (pySplit p ',') (annotatedOf annotated_query) with
              | none => rw [hm2] at h; exact absurd h (by simp)
              | some mm =>
                  rw [hm2] at h
                  simp only [Option.some.injEq, Prod.mk.injEq] at h
                  obtain ⟨h1, h2, h3⟩ := h
                  exact ⟨s1, mn, p, rfl, hmn, h1.symm, h2.symm, hca, by rw [← h3]; exact hm2⟩

/-- Full specification of a successful nearest-variant search with
canonically printed ids: the returned ST is registered, attains the minimum
locus-mismatch distance, and its numeric id is least among the argmin
set. -/
theorem gclv_spec (query annotated_query : List String) (sts : List (String × String))
    (st : String) (md m2 : Nat)
    (hrun : get_closest_locus_variant query annotated_query sts = some (st, md, m2))
    (hcanon : ∀ pr ∈ sts, isCanonId pr.2 = true) :
    ∃ nst p, pyInt st = some nst ∧ (p, st) ∈ sts ∧
      profileDist (pySplit p ',') (queryOf query) = some md ∧
      (∀ pr ∈ sts, ∀ d, profileDist (pySplit pr.1 ',') (queryOf query) = some d → md ≤ d) ∧
      (∀ pr ∈ sts, profileDist (pySplit pr.1 ',') (queryOf query) = some md →
        ∃ n, pyInt pr.2 = some n ∧ nst ≤ n) := by
  obtain ⟨s', mn, p0, hloop, hmn, hst, hmd, hca, hm2⟩ :=
    gclv_elim query annotated_query sts st md m2 hrun
  have hmem := pyMinList_mem _ _ hmn
  rcases gclvLoop_closest_origin _ sts _ s' hloop mn hmem with ⟨habs, _⟩ | ⟨pr, hpr, hdpr, hnpr⟩
  · simp at habs
  · obtain ⟨n0, hn0, hts⟩ := isCanonId_spec pr.2 (hcanon pr hpr)
    have hn0mn : n0 = mn := by
      rw [hn0] at hnpr
      injection hnpr
    have hstpr : st = pr.2 := by
      rw [hst, ← hn0mn, hts]
    refine ⟨mn, pr.1, ?_, ?_, ?_, ?_, ?_⟩
    · rw [hstpr, hn0, hn0mn]
    · have hpair : (pr.1, pr.2) = pr := rfl
      rw [hstpr, hpair]
      exact hpr
    · rw [hmd]
      exact hdpr
    · intro pr' hpr' d hd
      have := (gclvLoop_minDist_le (queryOf query) sts _ s' hloop).2 pr' hpr' d hd
      rw [hmd]
      exact this
    · intro pr' hpr' hd
      rw [hmd] at hd
      obtain ⟨n, hn, hnmem⟩ := gclvLoop_argmin_mem (queryOf query) sts _ s' hloop pr' hpr' hd
      exact ⟨n, hn, pyMinList_le _ _ hmn n hnmem⟩

/-!
## Claim C3: the nearest-variant selection rule
-/

/-- C3: when gate 1 passes and the joined query has no exact key, the lookup
phase returns the registered ST whose profile minimizes the per-locus
integer-mismatch count against the query (with `-` entries replaced by `0`),
and among the STs attaining the minimum the numerically smallest id is
chosen.  Ids are assumed canonically printed integers and profiles one
allele per query locus. -/
theorem claim_C3_nearest_st_min_id (best_st best_st_annotated : List String)
    (alleles_to_st : List (String × String)) (mm0 : Nat) (max_missing : Int)
    (st : String) (m : Nat)
    (hcanon : ∀ pr ∈ alleles_to_st, isCanonId pr.2 = true)
    (hlen : ∀ pr ∈ alleles_to_st, (pySplit pr.1 ',').length = best_st.length)
    (hgate : (mm0 : Int) ≤ max_missing)
    (hnokey : alookup alleles_to_st (joinComma best_st) = none)
    (hrun : lookupStep best_st best_st_annotated alleles_to_st mm0 max_missing
      = some (st, m)) :
    ∃ md nst p, pyInt st = some nst ∧ (p, st) ∈ alleles_to_st ∧
      profileDist (pySplit p ',') (queryOf best_st) = some md ∧
      (∀ pr ∈ alleles_to_st, ∀ d,
        profileDist (pySplit pr.1 ',') (queryOf best_st) = some d → md ≤ d) ∧
      (∀ pr ∈ alleles_to_st,
        profileDist (pySplit pr.1 ',') (queryOf best_st) = some md →
          ∃ n, pyInt pr.2 = some n ∧ nst ≤ n) := by
  unfold lookupStep at hrun
  rw [if_pos hgate, hnokey] at hrun
  cases hg : get_closest_locus_variant best_st best_st_annotated alleles_to_st with
  | none => rw [hg] at hrun; exact absurd hrun (by simp)
  | some r =>
      obtain ⟨r1, r2, r3⟩ := r
      rw [hg] at hrun
      dsimp only at hrun
      simp only [Option.some.injEq, Prod.mk.injEq] at hrun
      obtain ⟨hst, hm⟩ := hrun
      rw [hst, hm] at hg
      obtain ⟨nst, p, h1, h2, h3, h4, h5⟩ :=
        gclv_spec best_st best_st_annotated alleles_to_st st r2 m hg hcanon
      exact ⟨r2, nst, p, h1, h2, h3, h4, h5⟩

/-- Witness for C3: query `1,9` against profiles `1,2` (ST 5) and `1,3`
(ST 4), both at distance 1; the numerically smaller ST 4 is chosen. -/
theorem claim_C3_witness :
    ∃ md nst p, pyInt "4" = some nst ∧ (p, "4") ∈ [("1,2", "5"), ("1,3", "4")] ∧
      profileDist (pySplit p ',') (queryOf ["1", "9"]) = some md ∧
      (∀ pr ∈ [("1,2", "5"), ("1,3", "4")], ∀ d,
        profileDist (pySplit pr.1 ',') (queryOf ["1", "9"]) = some d → md ≤ d) ∧
      (∀ pr ∈ [("1,2", "5"), ("1,3", "4")],
        profileDist (pySplit pr.1 ',') (queryOf ["1", "9"]) = some md →
          ∃ n, pyInt pr.2 = some n ∧ nst ≤ n) :=
  claim_C3_nearest_st_min_id ["1", "9"] ["1", "9"] [("1,2", "5"), ("1,3", "4")] 0 3 "4" 1
    (by decide) (by decide) (by decide) (by decide) (by decide)

/-!
## Claim C4: the recomputed mismatch count and the LV suffix
-/

/-- C4: (i) after a nearest-variant search, the returned
`mismatch_loci_including_snps` is the integer-mismatch distance between the
annotated query (truncation tags stripped; `-` or `*`-marked entries forced
to `0`) and the winning ST's registered profile (unique when no two profiles
share an id); (ii) the final label appends `-<n>LV` exactly when that count
`n` is positive and the post-gate ST is not `"0"`. -/
theorem claim_C4_lv_suffix_and_recount :
    (∀ (query annotated_query : List String) (sts : List (String × String))
       (st : String) (md m2 : Nat) (p : String),
       get_closest_locus_variant query annotated_query sts = some (st, md, m2) →
       (∀ p1 p2 i, (p1, i) ∈ sts → (p2, i) ∈ sts → p1 = p2) →
       (p, st) ∈ sts →
       profileDist (pySplit p ',') (annotatedOf annotated_query) = some m2) ∧
    (∀ (header : List String) (ba alleles_to_st st_to_info : List (String × String))
       (max_missing : Int) (info_arg : String) (report_incomplete : Bool)
       (out : String × List String × String) (bst1 : String) (mm1 : Nat),
       assignST header ba alleles_to_st st_to_info max_missing info_arg report_incomplete
         = some out →
       lookupStep (bestSTLists ba header).best_st (bestSTLists ba header).best_st_annotated
         alleles_to_st (bestSTLists ba header).mismatch max_missing = some (bst1, mm1) →
       out.1 =
         (let bst2 := if ((bestSTLists ba header).best_st.length : Int) - (mm1 : Int)
             < ((header.length / 2 : Nat) : Int) then "0" else bst1;
          if 0 < mm1 ∧ bst2 ≠ "0" then bst2 ++ "-" ++ toString mm1 ++ "LV" else bst2)) := by
  constructor
  · intro query annotated_query sts st md m2 p hrun hinj hmem
    obtain ⟨s', mn, p0, hloop, hmn, hst, hmd, hca, hm2⟩ :=
      gclv_elim query annotated_query sts st md m2 hrun
    have hca_mem := alookup_mem _ _ _ hca
    have hprov := gclvLoop_ca_mem (queryOf query) sts _ s' hloop _ hca_mem
    rcases hprov with habs | hmem0
    · simp at habs
    · have hp0 : (p0, toString mn) ∈ sts := hmem0
      rw [← hst] at hp0
      have : p0 = p := hinj p0 p st hp0 hmem
      rw [← this]
      exact hm2
  · intro header ba alleles_to_st st_to_info max_missing info_arg report_incomplete out
      bst1 mm1 hrun hstep
    simp only [assignST] at hrun
    rw [hstep] at hrun
    simp only [Option.some.injEq] at hrun
    rw [← hrun]

/-- Witness for C4 at concrete inputs: the nearest-variant run
`(query 1,9; annotated 1,9*; ST 4 at profile 1,3)` recomputes the distance
to 1, and the assignment at the same data formats the label `4-1LV`. -/
theorem claim_C4_witness :
    profileDist (pySplit "1,3" ',') (annotatedOf ["1", "9*"]) = some 1 ∧
    (("4-1LV", ["1", "9"], "") : String × List String × String).1 =
      (let bst2 := if ((bestSTLists [("gapA", "1"), ("infB", "9")]
            ["gapA", "infB"]).best_st.length : Int) - ((1 : Nat) : Int)
          < ((["gapA", "infB"].length / 2 : Nat) : Int) then "0" else "4";
       if 0 < 1 ∧ bst2 ≠ "0" then bst2 ++ "-" ++ toString (1 : Nat) ++ "LV" else bst2) := by
  constructor
  · exact claim_C4_lv_suffix_and_recount.1 ["1", "9"] ["1", "9*"] [("1,3", "4")] "4" 1 1 "1,3"
      (by decide)
      (by
        intro p1 p2 i h1 h2
        simp only [List.mem_singleton, Prod.mk.injEq] at h1 h2
        rw [h1.1, h2.1])
      (by decide)
  · exact claim_C4_lv_suffix_and_recount.2 ["gapA", "infB"] [("gapA", "1"), ("infB", "9")]
      [("1,3", "4")] [] 5 "no" false ("4-1LV", ["1", "9"], "") "4" 1 (by decide) (by decide)

/-!
## Claim C9: graceful degradation
-/

/-- Rebuilding a string from its characters is the identity. -/
theorem mk_data (s : String) : String.mk s.data = s := rfl

/-- Splitting after a separator-free prefix keeps the prefix in the first
piece. -/
theorem splitChar_append_no_sep (sep : Char) (l1 l2 : List Char) (h : sep ∉ l1) :
    splitChar sep (l1 ++ l2)
      = (l1 ++ (splitChar sep l2).headD []) :: (splitChar sep l2).tail := by
  induction l1 with
  | nil =>
      simp only [List.nil_append]
      cases hs : splitChar sep l2 with
      | nil => exact absurd hs (splitChar_ne_nil sep l2)
      | cons a as => simp
  | cons c cs ih =>
      have hc : ¬ (c = sep) := fun he => h (by rw [he]; exact List.mem_cons_self _ _)
      have hcs : sep ∉ cs := fun hm => h (List.mem_cons_of_mem _ hm)
      simp only [List.cons_append, splitChar, if_neg hc, List.append_eq]
      rw [ih hcs]
      simp

/-- Joining comma-free fields and splitting on commas round-trips. -/
theorem pySplit_joinComma (xs : List String) (hne : xs ≠ [])
    (hnc : ∀ x ∈ xs, ',' ∉ x.data) : pySplit (joinComma xs) ',' = xs := by
  induction xs with
  | nil => contradiction
  | cons x rest ih =>
      cases rest with
      | nil =>
          show pySplit (joinComma [x]) ',' = [x]
          have hx := hnc x (List.mem_cons_self _ _)
          unfold pySplit
          have h1 : splitChar ',' (x.data ++ []) = [x.data ++ []] := by
            rw [splitChar_append_no_sep ',' x.data [] hx]
            rfl
          rw [show (joinComma [x]).data = x.data from rfl]
          rw [show x.data = x.data ++ [] by simp]
          rw [h1]
          simp [mk_data]
      | cons y rest' =>
          have hx := hnc x (List.mem_cons_self _ _)
          have hjoin : joinComma (x :: y :: rest') = x ++ "," ++ joinComma (y :: rest') := rfl
          unfold pySplit
          rw [hjoin]
          have hdata : (x ++ "," ++ joinComma (y :: rest')).data
              = x.data ++ (',' :: (joinComma (y :: rest')).data) := by
            rw [String.data_append, String.data_append]
            simp
          rw [hdata, splitChar_append_no_sep ',' x.data _ hx]
          have hsc : splitChar ',' (',' :: (joinComma (y :: rest')).data)
              = [] :: splitChar ',' (joinComma (y :: rest')).data := by
            simp [splitChar]
          rw [hsc]
          simp only [List.headD_cons, List.tail_cons, List.append_nil, List.map_cons, mk_data]
          have ihr := ih (by simp) (fun z hz => hnc z (List.mem_cons_of_mem _ hz))
          unfold pySplit at ihr
          rw [ihr]

/-- The locus-mismatch distance is defined on integer entries. -/
theorem profileDist_isSome (xs ys : List String)
    (hx : ∀ x ∈ xs, (pyInt x).isSome) (hy : ∀ y ∈ ys, (pyInt y).isSome) :
    (profileDist xs ys).isSome := by
  induction xs generalizing ys with
  | nil => rw [show profileDist [] ys = some 0 from rfl]; rfl
  | cons x xs ih =>
      cases ys with
      | nil => rw [show profileDist (x :: xs) [] = some 0 from rfl]; rfl
      | cons y ys =>
          obtain ⟨a, ha⟩ := Option.isSome_iff_exists.mp (hx x (List.mem_cons_self _ _))
          obtain ⟨b, hb⟩ := Option.isSome_iff_exists.mp (hy y (List.mem_cons_self _ _))
          have ihr := ih ys (fun z hz => hx z (List.mem_cons_of_mem _ hz))
            (fun z hz => hy z (List.mem_cons_of_mem _ hz))
          obtain ⟨r, hr⟩ := Option.isSome_iff_exists.mp ihr
          simp only [profileDist, ha, hb, hr]
          rfl

/-- Against an all-`"0"` query of matching length, nonzero integer profiles
are at full distance. -/
theorem profileDist_replicate_zero (xs : List String) (n : Nat) (hlen : xs.length = n)
    (hx : ∀ x ∈ xs, (pyInt x).isSome ∧ pyInt x ≠ some 0) :
    profileDist xs (List.replicate n "0") = some n := by
  induction xs generalizing n with
  | nil =>
      subst hlen
      rfl
  | cons x xs ih =>
      cases n with
      | zero => simp at hlen
      | succ n =>
          obtain ⟨hs, hnz⟩ := hx x (List.mem_cons_self _ _)
          obtain ⟨a, ha⟩ := Option.isSome_iff_exists.mp hs
          have hlen' : xs.length = n := by simpa using hlen
          have ihr := ih n hlen' (fun z hz => hx z (List.mem_cons_of_mem _ hz))
          have hz : pyInt "0" = some 0 := rfl
          simp only [List.replicate_succ, profileDist, ha, hz, ihr]
          have hane : a ≠ 0 := fun he => hnz (by rw [ha, he])
          rw [if_pos (by omega : a - 0 ≠ 0), Nat.add_comm]

/-- With an empty `best_allele` dict every locus resolves to `-`: both
profile lists are all dashes and both counters equal the locus count. -/
theorem bestSTLists_nil (header : List String) :
    bestSTLists [] header
      = ⟨List.replicate header.length "-", List.replicate header.length "-",
         header.length, header.length⟩ := by
  induction header with
  | nil => rfl
  | cons locus rest ih =>
      simp only [bestSTLists, alookup, ih]
      simp [List.replicate_succ, Nat.add_comm]

/-- The nearest-variant search succeeds on a nonempty database of integer
profiles with canonical ids, given integer query entries. -/
theorem gclv_isSome (query annotated_query : List String) (sts : List (String × String))
    (hne : sts ≠ [])
    (hprof : ∀ pr ∈ sts, ∀ e ∈ pySplit pr.1 ',', (pyInt e).isSome)
    (hcanon : ∀ pr ∈ sts, isCanonId pr.2 = true)
    (hq : ∀ e ∈ queryOf query, (pyInt e).isSome)
    (haq : ∀ e ∈ annotatedOf annotated_query, (pyInt e).isSome) :
    (get_closest_locus_variant query annotated_query sts).isSome := by
  have hloopS : (gclvLoop (queryOf query) sts ⟨[], [], query.length⟩).isSome := by
    apply gclvLoop_isSome
    · intro pr hpr
      exact profileDist_isSome _ _ (hprof pr hpr) hq
    · intro pr hpr
      obtain ⟨n, hn, _⟩ := isCanonId_spec pr.2 (hcanon pr hpr)
      rw [hn]
      rfl
  obtain ⟨s', hs'⟩ := Option.isSome_iff_exists.mp hloopS
  have hnonempty : s'.closest ≠ [] := by
    apply gclvLoop_closest_nonempty (queryOf query) sts _ s' hs'
    · intro _
      exact (List.length_map _ _).symm
    · exact Or.inr hne
  obtain ⟨c0, cs, hcl⟩ : ∃ c0 cs, s'.closest = c0 :: cs := by
    cases hcl : s'.closest with
    | nil => exact absurd hcl hnonempty
    | cons c0 cs => exact ⟨c0, cs, rfl⟩
  have hmn : pyMinList s'.closest = some (cs.foldl min c0) := by
    rw [hcl]
    rfl
  have hlk : (alookup s'.closestAlleles (toString (cs.foldl min c0))).isSome := by
    apply gclvLoop_closest_lookup (queryOf query) sts _ s' hs'
      (fun pr hpr => isCanonId_spec pr.2 (hcanon pr hpr)) (by simp)
    exact pyMinList_mem _ _ hmn
  obtain ⟨p, hp⟩ := Option.isSome_iff_exists.mp hlk
  have hpmem : (toString (cs.foldl min c0), p) ∈ s'.closestAlleles := alookup_mem _ _ _ hp
  have hpsts := gclvLoop_ca_mem (queryOf query) sts _ s' hs' _ hpmem
  have hpin : (p, toString (cs.foldl min c0)) ∈ sts := by
    rcases hpsts with habs | hmem
    · simp at habs
    · exact hmem
  have hm2 : (profileDist (pySplit p ',') (annotatedOf annotated_query)).isSome :=
    profileDist_isSome _ _ (hprof _ hpin) haq
  obtain ⟨m2, hm2e⟩ := Option.isSome_iff_exists.mp hm2
  unfold get_closest_locus_variant
  rw [hs']
  dsimp only
  rw [hmn]
  dsimp only
  rw [hp]
  dsimp only
  rw [hm2e]
  rfl

/-- Each entry of `best_st` is `-` or a stripped `best_allele` value. -/
theorem bestSTLists_best_st_mem (ba : List (String × String)) (header : List String) :
    ∀ e ∈ (bestSTLists ba header).best_st,
      e = "-" ∨ ∃ p ∈ ba, e = stripTrunc (removeStar p.2) := by
  induction header with
  | nil => simp [bestSTLists]
  | cons locus rest ih =>
      simp only [bestSTLists]
      cases hlo : alookup ba locus with
      | none =>
          intro e he
          dsimp only at he
          rcases List.mem_cons.mp he with rfl | hm
          · exact Or.inl rfl
          · exact ih e hm
      | some a =>
          intro e he
          dsimp only at he
          rcases List.mem_cons.mp he with rfl | hm
          · exact Or.inr ⟨(locus, a), alookup_mem _ _ _ hlo, rfl⟩
          · exact ih e hm

/-- Each entry of `best_st_annotated` is `-` or a `best_allele` value. -/
theorem bestSTLists_annotated_mem (ba : List (String × String)) (header : List String) :
    ∀ e ∈ (bestSTLists ba header).best_st_annotated,
      e = "-" ∨ ∃ p ∈ ba, e = p.2 := by
  induction header with
  | nil => simp [bestSTLists]
  | cons locus rest ih =>
      simp only [bestSTLists]
      cases hlo : alookup ba locus with
      | none =>
          intro e he
          dsimp only at he
          rcases List.mem_cons.mp he with rfl | hm
          · exact Or.inl rfl
          · exact ih e hm
      | some a =>
          intro e he
          dsimp only at he
          rcases List.mem_cons.mp he with hea | hm
          · exact Or.inr ⟨(locus, a), alookup_mem _ _ _ hlo, hea⟩
          · exact ih e hm

/-- Integer allele calls make the substituted query all-integer. -/
theorem queryOf_numeric (ba : List (String × String)) (header : List String)
    (hba : ∀ p ∈ ba, (pyInt (stripTrunc (removeStar p.2))).isSome) :
    ∀ e ∈ queryOf (bestSTLists ba header).best_st, (pyInt e).isSome := by
  intro e he
  unfold queryOf at he
  obtain ⟨e0, he0, rfl⟩ := List.mem_map.mp he
  by_cases hd : e0 = "-"
  · rw [if_pos hd]
    rfl
  · rw [if_neg hd]
    rcases bestSTLists_best_st_mem ba header e0 he0 with h | ⟨p, hp, rfl⟩
    · exact absurd h hd
    · exact hba p hp

/-- Integer allele calls make the substituted annotated query all-integer. -/
theorem annotatedOf_numeric (ba : List (String × String)) (header : List String)
    (hba : ∀ p ∈ ba, (pyInt (stripTrunc (removeStar p.2))).isSome) :
    ∀ e ∈ annotatedOf (bestSTLists ba header).best_st_annotated, (pyInt e).isSome := by
  intro e he
  unfold annotatedOf at he
  obtain ⟨e0, he0, rfl⟩ := List.mem_map.mp he
  by_cases hc : e0 = "-" ∨ '*' ∈ e0.data
  · rw [if_pos hc]
    rfl
  · rw [if_neg hc]
    push_neg at hc
    rcases bestSTLists_annotated_mem ba header e0 he0 with h | ⟨p, hp, rfl⟩
    · exact absurd h hc.1
    · have hnum := hba p hp
      rwa [removeStar_eq_self p.2 hc.2] at hnum

/-- The lookup phase succeeds on a nonempty, integer-profiled, canonically
identified database with integer allele calls. -/
theorem lookupStep_isSome (header : List String) (ba sts : List (String × String))
    (mm : Int) (hne : sts ≠ [])
    (hprof : ∀ pr ∈ sts, ∀ e ∈ pySplit pr.1 ',', (pyInt e).isSome)
    (hcanon : ∀ pr ∈ sts, isCanonId pr.2 = true)
    (hba : ∀ p ∈ ba, (pyInt (stripTrunc (removeStar p.2))).isSome) :
    (lookupStep (bestSTLists ba header).best_st (bestSTLists ba header).best_st_annotated
      sts (bestSTLists ba header).mismatch mm).isSome := by
  unfold lookupStep
  by_cases hgate : (((bestSTLists ba header).mismatch : Nat) : Int) ≤ mm
  · rw [if_pos hgate]
    cases hkey : alookup sts (joinComma (bestSTLists ba header).best_st) with
    | some st => rfl
    | none =>
        have hg := gclv_isSome (bestSTLists ba header).best_st
          (bestSTLists ba header).best_st_annotated sts hne hprof hcanon
          (queryOf_numeric ba header hba) (annotatedOf_numeric ba header hba)
        obtain ⟨r, hr⟩ := Option.isSome_iff_exists.mp hg
        rw [hr]
        rfl
  · rw [if_neg hgate]
    rfl

/-- ST assignment never raises under the same conditions. -/
theorem assignST_isSome (header : List String) (ba sts st_to_info : List (String × String))
    (mm : Int) (ia : String) (ri : Bool) (hne : sts ≠ [])
    (hprof : ∀ pr ∈ sts, ∀ e ∈ pySplit pr.1 ',', (pyInt e).isSome)
    (hcanon : ∀ pr ∈ sts, isCanonId pr.2 = true)
    (hba : ∀ p ∈ ba, (pyInt (stripTrunc (removeStar p.2))).isSome) :
    (assignST header ba sts st_to_info mm ia ri).isSome := by
  have h := lookupStep_isSome header ba sts mm hne hprof hcanon hba
  obtain ⟨⟨bst1, mm1⟩, he⟩ := Option.isSome_iff_exists.mp h
  simp only [assignST]
  rw [he]
  rfl

/-- The returned label, as a function of the lookup phase's result. -/
theorem assignST_map_fst (header : List String) (ba sts st_to_info : List (String × String))
    (mm : Int) (ia : String) (ri : Bool) (bst1 : String) (mm1 : Nat)
    (hstep : lookupStep (bestSTLists ba header).best_st
      (bestSTLists ba header).best_st_annotated sts (bestSTLists ba header).mismatch mm
      = some (bst1, mm1)) :
    (assignST header ba sts st_to_info mm ia ri).map Prod.fst
      = some (if 0 < mm1 ∧ (if ((bestSTLists ba header).best_st.length : Int) - (mm1 : Int)
            < ((header.length / 2 : Nat) : Int) then "0" else bst1) ≠ "0"
          then (if ((bestSTLists ba header).best_st.length : Int) - (mm1 : Int)
            < ((header.length / 2 : Nat) : Int) then "0" else bst1)
            ++ "-" ++ toString mm1 ++ "LV"
          else (if ((bestSTLists ba header).best_st.length : Int) - (mm1 : Int)
            < ((header.length / 2 : Nat) : Int) then "0" else bst1)) := by
  simp only [assignST]
  rw [hstep]
  rfl

/-- Substituting zeros into an all-dash query. -/
theorem queryOf_replicate_dash (n : Nat) :
    queryOf (List.replicate n "-") = List.replicate n "0" := by
  unfold queryOf
  rw [List.map_replicate]
  simp

/-- The annotated substitution on an all-dash list. -/
theorem annotatedOf_replicate_dash (n : Nat) :
    annotatedOf (List.replicate n "-") = List.replicate n "0" := by
  unfold annotatedOf
  rw [List.map_replicate]
  simp

/-- C9 (counterexample to the claim as stated): with a structurally valid
single-locus database (`ST 7`, allele `5`) and no hits at all, `max_missing
= 1` lets the nearest-variant search run, and the result is `7-1LV`, not
`"0"` — the missing-locus accounting does not drive a single-locus database
to `"0"`. -/
theorem claim_C9_counterexample :
    mlst_blast_model (fun _ => "") ["gapA"] [("5", "7")] [] [] 1 "no" false false false
      = some ("7-1LV", ["-"], "") := by decide

/-- C9 (amended): (i) on a structurally valid database — nonempty, integer
allele entries, canonically printed integer ids — and integer allele calls,
the ST assignment completes without raising; (ii) with no hits at all every
locus resolves to `-`, and the label is `"0"` provided the database has at
least two loci, one (nonzero, integer) allele per locus, and canonical ids;
a single-locus database can instead yield a nearest-ST `-1LV` label. -/
theorem claim_C9_graceful_degradation :
    (∀ (header : List String) (ba alleles_to_st st_to_info : List (String × String))
       (max_missing : Int) (info_arg : String) (report_incomplete : Bool),
       alleles_to_st ≠ [] →
       (∀ pr ∈ alleles_to_st, ∀ e ∈ pySplit pr.1 ',', (pyInt e).isSome) →
       (∀ pr ∈ alleles_to_st, isCanonId pr.2 = true) →
       (∀ p ∈ ba, (pyInt (stripTrunc (removeStar p.2))).isSome) →
       (assignST header ba alleles_to_st st_to_info max_missing info_arg
         report_incomplete).isSome) ∧
    (∀ (trunc : Hit → String) (header : List String)
       (alleles_to_st st_to_info : List (String × String)) (max_missing : Int)
       (info_arg : String) (chk report_incomplete allow_multiple : Bool),
       2 ≤ header.length →
       alleles_to_st ≠ [] →
       (∀ pr ∈ alleles_to_st, isCanonId pr.2 = true) →
       (∀ pr ∈ alleles_to_st, (pySplit pr.1 ',').length = header.length ∧
         ∀ e ∈ pySplit pr.1 ',', (pyInt e).isSome ∧ pyInt e ≠ some 0) →
       (mlst_blast_model trunc header alleles_to_st st_to_info [] max_missing info_arg chk
         report_incomplete allow_multiple).map Prod.fst = some "0") := by
  constructor
  · intro header ba sts st_to_info mm ia ri hne hprof hcanon hba
    exact assignST_isSome header ba sts st_to_info mm ia ri hne hprof hcanon hba
  · intro trunc header sts st_to_info mm ia chk ri am hlen2 hne hcanon hprofs
    have hred : mlst_blast_model trunc header sts st_to_info [] mm ia chk ri am
        = assignST header [] sts st_to_info mm ia ri := by
      cases am <;> rfl
    rw [hred]
    have hacc := bestSTLists_nil header
    have hnn : List.replicate header.length "-" ≠ ([] : List String) := by
      simp only [ne_eq, List.replicate_eq_nil_iff]
      omega
    by_cases hgate : ((header.length : Nat) : Int) ≤ mm
    · -- gate 1 passes: exact lookup misses, nearest-variant runs at full distance
      have hsplitkey : pySplit (joinComma (List.replicate header.length "-")) ',' =
          List.replicate header.length "-" := by
        apply pySplit_joinComma _ hnn
        intro x hx
        rw [List.eq_of_mem_replicate hx]
        decide
      have hkey : alookup sts (joinComma (List.replicate header.length "-")) = none := by
        cases hk : alookup sts (joinComma (List.replicate header.length "-")) with
        | none => rfl
        | some st =>
            exfalso
            have hmem := alookup_mem _ _ _ hk
            have hpr := (hprofs _ hmem).2
            have hdash : ("-" : String) ∈ pySplit (joinComma
                (List.replicate header.length "-")) ',' := by
              rw [hsplitkey]
              exact List.mem_replicate.mpr ⟨by omega, rfl⟩
            have := (hpr _ hdash).1
            rw [show pyInt "-" = none from rfl] at this
            simp at this
      have hq0 : ∀ e ∈ queryOf (List.replicate header.length "-"), (pyInt e).isSome := by
        rw [queryOf_replicate_dash]
        intro e he
        rw [List.eq_of_mem_replicate he]
        rfl
      have haq0 : ∀ e ∈ annotatedOf (List.replicate header.length "-"),
          (pyInt e).isSome := by
        rw [annotatedOf_replicate_dash]
        intro e he
        rw [List.eq_of_mem_replicate he]
        rfl
      have hg := gclv_isSome (List.replicate header.length "-")
        (List.replicate header.length "-") sts hne
        (fun pr hpr => fun e hee => ((hprofs pr hpr).2 e hee).1) hcanon hq0 haq0
      obtain ⟨⟨st, md, m2⟩, hgr⟩ := Option.isSome_iff_exists.mp hg
      have hm2n : m2 = header.length := by
        obtain ⟨s', mn, p, hloop, hmn, hst, hmd, hca, hm2⟩ :=
          gclv_elim _ _ sts st md m2 hgr
        have hpmem := alookup_mem _ _ _ hca
        have hpsts := gclvLoop_ca_mem _ sts _ s' hloop _ hpmem
        have hpin : (p, toString mn) ∈ sts := by
          rcases hpsts with habs | hmem
          · simp at habs
          · exact hmem
        have hfull := profileDist_replicate_zero (pySplit p ',') header.length
          (hprofs _ hpin).1 ((hprofs _ hpin).2)
        rw [annotatedOf_replicate_dash] at hm2
        rw [hfull] at hm2
        injection hm2 with hh
        exact hh.symm
      have hstep0 : lookupStep (bestSTLists [] header).best_st
          (bestSTLists [] header).best_st_annotated sts
          (bestSTLists [] header).mismatch mm = some (st, header.length) := by
        rw [hacc]
        dsimp only
        unfold lookupStep
        rw [if_pos hgate, hkey, hgr]
        dsimp only
        rw [hm2n]
      rw [assignST_map_fst header [] sts st_to_info mm ia ri st header.length hstep0]
      have hbst2 : (if ((bestSTLists [] header).best_st.length : Int)
          - ((header.length : Nat) : Int) < ((header.length / 2 : Nat) : Int)
          then "0" else st) = "0" := by
        rw [hacc]
        dsimp only
        rw [if_pos]
        rw [List.length_replicate]
        have hh : 1 ≤ header.length / 2 := by omega
        push_cast
        omega
      rw [hbst2]
      rw [if_neg (by simp)]
    · -- gate 1 fails: ST "0" immediately
      have hstep0 : lookupStep (bestSTLists [] header).best_st
          (bestSTLists [] header).best_st_annotated sts
          (bestSTLists [] header).mismatch mm = some ("0", header.length) := by
        rw [hacc]
        dsimp only
        unfold lookupStep
        rw [if_neg hgate]
      rw [assignST_map_fst header [] sts st_to_info mm ia ri "0" header.length hstep0]
      simp only [ite_self]
      rw [if_neg (by simp)]

/-- Witness for the amended C9 at concrete inputs: a defined assignment on a
one-locus database with a hit, and the all-missing `"0"` outcome on a
two-locus database. -/
theorem claim_C9_witness :
    (assignST ["gapA"] [("gapA", "5")] [("6", "7")] [] 0 "no" false).isSome ∧
    (mlst_blast_model (fun _ => "") ["gapA", "infB"] [("5,6", "7")] [] [] 5 "no" false
      false false).map Prod.fst = some "0" :=
  ⟨claim_C9_graceful_degradation.1 ["gapA"] [("gapA", "5")] [("6", "7")] [] 0 "no" false
     (by decide) (by decide) (by decide) (by decide),
   claim_C9_graceful_degradation.2 (fun _ => "") ["gapA", "infB"] [("5,6", "7")] [] 5 "no"
     false false false (by decide) (by decide) (by decide) (by decide)⟩

/-!
## Claim C6: the hit reducer does not change the assignment
-/

/-- Decompose a successful per-hit call derivation. -/
theorem alleleCall_parts (trunc : Hit → String) (chk : Bool) (h : Hit) (c : String)
    (hc : alleleCall trunc chk h = some c) :
    ∃ a l m, get_allele_and_locus h = some (a, l) ∧ markedAllele trunc chk h a = some m ∧
      alleleNumberOf m = some c := by
  unfold alleleCall at hc
  cases hg : get_allele_and_locus h with
  | none => rw [hg] at hc; exact absurd hc (by simp)
  | some al =>
      obtain ⟨a, l⟩ := al
      rw [hg] at hc
      dsimp only at hc
      cases hm : markedAllele trunc chk h a with
      | none => rw [hm] at hc; exact absurd hc (by simp)
      | some m =>
          rw [hm] at hc
          dsimp only at hc
          exact ⟨a, l, m, rfl, hm, hc⟩

/-- Exhaustive characterization of one successful resolver step. -/
theorem resolverStep_cases (trunc : Hit → String) (chk : Bool)
    (bs : List (String × ℚ)) (ba : List (String × String)) (h : Hit)
    (bs1 : List (String × ℚ)) (ba1 : List (String × String))
    (hstep : resolverStep trunc chk (bs, ba) h = some (bs1, ba1)) :
    ∃ allele locus marked, get_allele_and_locus h = some (allele, locus) ∧
      markedAllele trunc chk h allele = some marked ∧
      ((∃ s, alookup bs locus = some s ∧ ¬ (h.score > s) ∧ bs1 = bs ∧ ba1 = ba) ∨
       (∃ call, alleleNumberOf marked = some call ∧
         bs1 = dictInsert bs locus h.score ∧ ba1 = dictInsert ba locus call ∧
         ((∃ s, alookup bs locus = some s ∧ h.score > s) ∨ alookup bs locus = none))) := by
  unfold resolverStep at hstep
  cases hg : get_allele_and_locus h with
  | none => rw [hg] at hstep; exact absurd hstep (by simp)
  | some al =>
      obtain ⟨allele, locus⟩ := al
      rw [hg] at hstep
      dsimp only at hstep
      cases hm : markedAllele trunc chk h allele with
      | none => rw [hm] at hstep; exact absurd hstep (by simp)
      | some marked =>
          rw [hm] at hstep
          dsimp only at hstep
          refine ⟨allele, locus, marked, rfl, hm, ?_⟩
          cases hlk : alookup bs locus with
          | some s =>
              rw [hlk] at hstep
              dsimp only at hstep
              by_cases hgt : h.score > s
              · rw [if_pos hgt] at hstep
                cases hcall : alleleNumberOf marked with
                | none => rw [hcall] at hstep; exact absurd hstep (by simp)
                | some call =>
                    rw [hcall] at hstep
                    dsimp only at hstep
                    simp only [Option.some.injEq, Prod.mk.injEq] at hstep
                    exact Or.inr ⟨call, rfl, hstep.1.symm, hstep.2.symm,
                      Or.inl ⟨s, rfl, hgt⟩⟩
              · rw [if_neg hgt] at hstep
                simp only [Option.some.injEq, Prod.mk.injEq] at hstep
                exact Or.inl ⟨s, rfl, hgt, hstep.1.symm, hstep.2.symm⟩
          | none =>
              rw [hlk] at hstep
              dsimp only at hstep
              cases hcall : alleleNumberOf marked with
              | none => rw [hcall] at hstep; exact absurd hstep (by simp)
              | some call =>
                  rw [hcall] at hstep
                  dsimp only at hstep
                  simp only [Option.some.injEq, Prod.mk.injEq] at hstep
                  exact Or.inr ⟨call, rfl, hstep.1.symm, hstep.2.symm, Or.inr rfl⟩

/-- A resolver step keeps the two per-locus dicts synchronized. -/
theorem resolverStep_sync (trunc : Hit → String) (chk : Bool)
    (bs : List (String × ℚ)) (ba : List (String × String)) (h : Hit)
    (bs1 : List (String × ℚ)) (ba1 : List (String × String))
    (hstep : resolverStep trunc chk (bs, ba) h = some (bs1, ba1))
    (hsync : ∀ L, (alookup bs L).isSome ↔ (alookup ba L).isSome) :
    ∀ L, (alookup bs1 L).isSome ↔ (alookup ba1 L).isSome := by
  obtain ⟨allele, locus, marked, _, _, hc⟩ :=
    resolverStep_cases trunc chk bs ba h bs1 ba1 hstep
  rcases hc with ⟨s, _, _, rfl, rfl⟩ | ⟨call, _, rfl, rfl, _⟩
  · exact hsync
  · intro L
    by_cases hL : L = locus
    · subst hL
      rw [alookup_dictInsert_self, alookup_dictInsert_self]
      simp
    · rw [alookup_dictInsert_ne bs locus L _ hL, alookup_dictInsert_ne ba locus L _ hL]
      exact hsync L

/-- A successful resolver run restricts, locus by locus, to the single-locus
loop `runL` over the locus's subsequence of hits. -/
theorem resolverLoop_runL (trunc : Hit → String) (chk : Bool) (hits : List Hit)
    (bs : List (String × ℚ)) (ba : List (String × String))
    (bs' : List (String × ℚ)) (ba' : List (String × String))
    (hrun : resolverLoop trunc chk hits (bs, ba) = some (bs', ba'))
    (hsync : ∀ L, (alookup bs L).isSome ↔ (alookup ba L).isSome) :
    (∀ L, (alookup bs' L).isSome ↔ (alookup ba' L).isSome) ∧
    (∀ L, runL trunc chk (pairOf bs ba L) (filterLocus hits L)
      = some (pairOf bs' ba' L)) := by
  induction hits generalizing bs ba with
  | nil =>
      simp only [resolverLoop, Option.some.injEq] at hrun
      injection hrun with h1 h2
      subst h1
      subst h2
      exact ⟨hsync, fun L => rfl⟩
  | cons h t ih =>
      simp only [resolverLoop] at hrun
      cases hstep : resolverStep trunc chk (bs, ba) h with
      | none => rw [hstep] at hrun; exact absurd hrun (by simp)
      | some st1 =>
          obtain ⟨bs1, ba1⟩ := st1
          rw [hstep] at hrun
          have hsync1 := resolverStep_sync trunc chk bs ba h bs1 ba1 hstep hsync
          obtain ⟨hsync', hIH⟩ := ih bs1 ba1 hrun hsync1
          refine ⟨hsync', ?_⟩
          intro L
          obtain ⟨allele, locus, marked, hg, hm, hc⟩ :=
            resolverStep_cases trunc chk bs ba h bs1 ba1 hstep
          have hlocus : locusOf h = some locus := by
            unfold locusOf
            rw [hg]
            rfl
          by_cases hL : locus = L
          · subst hL
            have hfilt : filterLocus (h :: t) locus = h :: filterLocus t locus := by
              unfold filterLocus
              rw [List.filter_cons, if_pos (by simp [hlocus])]
            rw [hfilt]
            rcases hc with ⟨s, hs, hns, hbs1, hba1⟩ | ⟨call, hcall, hbs1, hba1, hor⟩
            · obtain ⟨c, hcba⟩ := Option.isSome_iff_exists.mp
                ((hsync locus).mp (by rw [hs]; rfl))
              have hpair : pairOf bs ba locus = some (s, c) := by
                unfold pairOf
                rw [hs, hcba]
              rw [hpair]
              unfold runL
              rw [hg]
              dsimp only
              rw [hm]
              dsimp only
              rw [if_neg hns]
              rw [← hpair]
              have hx := hIH locus
              rw [hbs1, hba1] at hx
              exact hx
            · rcases hor with ⟨s, hs, hgt⟩ | hnone
              · obtain ⟨c, hcba⟩ := Option.isSome_iff_exists.mp
                  ((hsync locus).mp (by rw [hs]; rfl))
                have hpair : pairOf bs ba locus = some (s, c) := by
                  unfold pairOf
                  rw [hs, hcba]
                rw [hpair]
                unfold runL
                rw [hg]
                dsimp only
                rw [hm]
                dsimp only
                rw [if_pos hgt, hcall]
                dsimp only
                have hpair1 : pairOf (dictInsert bs locus h.score)
                    (dictInsert ba locus call) locus = some (h.score, call) := by
                  unfold pairOf
                  rw [alookup_dictInsert_self, alookup_dictInsert_self]
                have hx := hIH locus
                rw [hbs1, hba1, hpair1] at hx
                exact hx
              · have hbnone : alookup ba locus = none := by
                  cases hba : alookup ba locus with
                  | none => rfl
                  | some c =>
                      have hba2 := (hsync locus).mpr (by rw [hba]; rfl)
                      rw [hnone] at hba2
                      exact absurd hba2 (by simp)
                have hpair : pairOf bs ba locus = none := by
                  unfold pairOf
                  rw [hnone, hbnone]
                rw [hpair]
                unfold runL
                rw [hg]
                dsimp only
                rw [hm]
                dsimp only
                rw [hcall]
                dsimp only
                have hpair1 : pairOf (dictInsert bs locus h.score)
                    (dictInsert ba locus call) locus = some (h.score, call) := by
                  unfold pairOf
                  rw [alookup_dictInsert_self, alookup_dictInsert_self]
                have hx := hIH locus
                rw [hbs1, hba1, hpair1] at hx
                exact hx
          · have hfilt : filterLocus (h :: t) L = filterLocus t L := by
              unfold filterLocus
              rw [List.filter_cons, if_neg (by simp [hlocus, hL])]
            rw [hfilt]
            have hpair : pairOf bs1 ba1 L = pairOf bs ba L := by
              rcases hc with ⟨s, _, _, hbs1, hba1⟩ | ⟨call, _, hbs1, hba1, _⟩
              · rw [hbs1, hba1]
              · rw [hbs1, hba1]
                unfold pairOf
                have hLl : L ≠ locus := fun he => hL he.symm
                rw [alookup_dictInsert_ne bs locus L _ hLl,
                  alookup_dictInsert_ne ba locus L _ hLl]
            rw [← hpair]
            exact hIH L

/-- Unfolding equation for `bestOf` on a cons. -/
theorem bestOf_cons (b x : Hit) (xs : List Hit) :
    bestOf b (x :: xs) = bestOf (if x.score > b.score then x else b) xs := rfl

/-- Unfolding equation for `insertDesc` on a cons. -/
theorem insertDesc_cons (h y : Hit) (ys : List Hit) :
    insertDesc h (y :: ys) =
      if h.score ≥ y.score then h :: y :: ys else y :: insertDesc h ys := rfl

/-- Running the single-locus loop from a current best yields the
first-strict-improvement selection. -/
theorem runL_some_best (trunc : Hit → String) (chk : Bool) (t : List Hit) (b : Hit)
    (cb : String) (r : Option (ℚ × String))
    (hcb : alleleCall trunc chk b = some cb)
    (hrun : runL trunc chk (some (b.score, cb)) t = some r) :
    ∃ c, alleleCall trunc chk (bestOf b t) = some c ∧ r = some ((bestOf b t).score, c) := by
  induction t generalizing b cb with
  | nil =>
      simp only [runL, Option.some.injEq] at hrun
      exact ⟨cb, hcb, hrun.symm⟩
  | cons x t ih =>
      simp only [runL] at hrun
      cases hg : get_allele_and_locus x with
      | none => rw [hg] at hrun; exact absurd hrun (by simp)
      | some al =>
          obtain ⟨a, l⟩ := al
          rw [hg] at hrun
          dsimp only at hrun
          cases hm : markedAllele trunc chk x a with
          | none => rw [hm] at hrun; exact absurd hrun (by simp)
          | some m =>
              rw [hm] at hrun
              dsimp only at hrun
              by_cases hgt : x.score > b.score
              · rw [if_pos hgt] at hrun
                cases hcall : alleleNumberOf m with
                | none => rw [hcall] at hrun; exact absurd hrun (by simp)
                | some cx =>
                    rw [hcall] at hrun
                    dsimp only at hrun
                    have hcx : alleleCall trunc chk x = some cx := by
                      simp only [alleleCall, hg, hm]
                      exact hcall
                    have hbest : bestOf b (x :: t) = bestOf x t := by
                      rw [bestOf_cons, if_pos hgt]
                    rw [hbest]
                    exact ih x cx hcx hrun
              · rw [if_neg hgt] at hrun
                have hbest : bestOf b (x :: t) = bestOf b t := by
                  rw [bestOf_cons, if_neg hgt]
                rw [hbest]
                exact ih b cb hcb hrun

/-- Running the single-locus loop from scratch on a nonempty locus
subsequence selects the first maximal-score hit and its call. -/
theorem runL_none_best (trunc : Hit → String) (chk : Bool) (h : Hit) (t : List Hit)
    (r : Option (ℚ × String))
    (hrun : runL trunc chk none (h :: t) = some r) :
    ∃ c, alleleCall trunc chk (bestOf h t) = some c ∧ r = some ((bestOf h t).score, c) := by
  simp only [runL] at hrun
  cases hg : get_allele_and_locus h with
  | none => rw [hg] at hrun; exact absurd hrun (by simp)
  | some al =>
      obtain ⟨a, l⟩ := al
      rw [hg] at hrun
      dsimp only at hrun
      cases hm : markedAllele trunc chk h a with
      | none => rw [hm] at hrun; exact absurd hrun (by simp)
      | some m =>
          rw [hm] at hrun
          dsimp only at hrun
          cases hcall : alleleNumberOf m with
          | none => rw [hcall] at hrun; exact absurd hrun (by simp)
          | some c0 =>
              rw [hcall] at hrun
              dsimp only at hrun
              have hc0 : alleleCall trunc chk h = some c0 := by
                simp only [alleleCall, hg, hm]
                exact hcall
              exact runL_some_best trunc chk t h c0 r hc0 hrun

/-- A resolver step is defined when the hit's call derivation is. -/
theorem resolverStep_isSome (trunc : Hit → String) (chk : Bool)
    (bs : List (String × ℚ)) (ba : List (String × String)) (h : Hit)
    (hcall : (alleleCall trunc chk h).isSome) :
    (resolverStep trunc chk (bs, ba) h).isSome := by
  obtain ⟨c, hc⟩ := Option.isSome_iff_exists.mp hcall
  unfold alleleCall at hc
  unfold resolverStep
  cases hg : get_allele_and_locus h with
  | none => rw [hg] at hc; exact absurd hc (by simp)
  | some al =>
      obtain ⟨a, l⟩ := al
      rw [hg] at hc
      dsimp only at hc ⊢
      cases hm : markedAllele trunc chk h a with
      | none => rw [hm] at hc; exact absurd hc (by simp)
      | some m =>
          rw [hm] at hc
          dsimp only at hc ⊢
          cases hs : alookup bs l with
          | none =>
              dsimp only
              rw [hc]
              rfl
          | some s =>
              dsimp only
              by_cases hgt : h.score > s
              · rw [if_pos hgt, hc]
                rfl
              · rw [if_neg hgt]
                rfl

/-- The resolver loop is defined when every hit's call derivation is. -/
theorem resolverLoop_isSome (trunc : Hit → String) (chk : Bool) (hits : List Hit)
    (bs : List (String × ℚ)) (ba : List (String × String))
    (hcall : ∀ h ∈ hits, (alleleCall trunc chk h).isSome) :
    (resolverLoop trunc chk hits (bs, ba)).isSome := by
  induction hits generalizing bs ba with
  | nil => rfl
  | cons h t ih =>
      simp only [resolverLoop]
      cases hstep : resolverStep trunc chk (bs, ba) h with
      | none =>
          have hs := resolverStep_isSome trunc chk bs ba h (hcall h (List.mem_cons_self _ _))
          rw [hstep] at hs
          exact absurd hs (by simp)
      | some st1 =>
          obtain ⟨bs1, ba1⟩ := st1
          exact ih bs1 ba1 (fun x hx => hcall x (List.mem_cons_of_mem _ hx))

/-- `bestOf` dominates its seed. -/
theorem bestOf_score_seed (t : List Hit) : ∀ b : Hit, b.score ≤ (bestOf b t).score := by
  induction t with
  | nil => intro b; exact le_refl _
  | cons x xs ih =>
      intro b
      show b.score ≤ (bestOf (if x.score > b.score then x else b) xs).score
      by_cases hgt : x.score > b.score
      · rw [if_pos hgt]
        exact le_trans (le_of_lt hgt) (ih x)
      · rw [if_neg hgt]
        exact ih b

/-- `bestOf` dominates every list element. -/
theorem bestOf_score_mem (t : List Hit) : ∀ b : Hit, ∀ x ∈ t, x.score ≤ (bestOf b t).score := by
  induction t with
  | nil => intro b x hx; simp at hx
  | cons y ys ih =>
      intro b x hx
      show x.score ≤ (bestOf (if y.score > b.score then y else b) ys).score
      rcases List.mem_cons.mp hx with rfl | hmem
      · by_cases hgt : x.score > b.score
        · rw [if_pos hgt]
          exact bestOf_score_seed ys x
        · rw [if_neg hgt]
          exact le_trans (le_of_not_lt hgt) (bestOf_score_seed ys b)
      · exact ih _ x hmem

/-- Without a strict improver, the seed survives. -/
theorem bestOf_eq_seed (t : List Hit) : ∀ b : Hit, (∀ x ∈ t, ¬ (x.score > b.score)) →
    bestOf b t = b := by
  induction t with
  | nil => intro b _; rfl
  | cons y ys ih =>
      intro b hno
      show bestOf (if y.score > b.score then y else b) ys = b
      rw [if_neg (hno y (List.mem_cons_self _ _))]
      exact ih b (fun x hx => hno x (List.mem_cons_of_mem _ hx))

/-- Seeds below the eventual winner never influence the selection. -/
theorem bestOf_seed_irrelevant (t : List Hit) : ∀ a b : Hit, b.score ≤ a.score →
    a.score < (bestOf b t).score → bestOf a t = bestOf b t := by
  induction t with
  | nil =>
      intro a b hba hlt
      exact absurd (lt_of_le_of_lt hba hlt) (lt_irrefl _)
  | cons x xs ih =>
      intro a b hba hlt
      show bestOf (if x.score > a.score then x else a) xs
        = bestOf (if x.score > b.score then x else b) xs
      have hlt' : a.score < (bestOf (if x.score > b.score then x else b) xs).score := hlt
      by_cases hxa : x.score > a.score
      · rw [if_pos hxa, if_pos (lt_of_le_of_lt hba hxa)]
      · rw [if_neg hxa]
        by_cases hxb : x.score > b.score
        · rw [if_pos hxb] at hlt' ⊢
          exact ih a x (le_of_not_lt hxa) hlt'
        · rw [if_neg hxb] at hlt' ⊢
          exact ih a b hba hlt'

/-- Membership is preserved by the stable insertion. -/
theorem mem_insertDesc (h x : Hit) (l : List Hit) :
    x ∈ insertDesc h l ↔ x = h ∨ x ∈ l := by
  induction l with
  | nil => simp [insertDesc]
  | cons y ys ih =>
      unfold insertDesc
      by_cases hge : h.score ≥ y.score
      · rw [if_pos hge]
        simp
      · rw [if_neg hge]
        simp only [List.mem_cons, ih]
        tauto

/-- Membership is preserved by the stable sort. -/
theorem mem_pySortDesc (x : Hit) (l : List Hit) : x ∈ pySortDesc l ↔ x ∈ l := by
  induction l with
  | nil => simp [pySortDesc]
  | cons y ys ih =>
      unfold pySortDesc
      rw [mem_insertDesc]
      simp only [List.mem_cons, ih]

/-- The head of the stable descending sort is the first maximal-score hit,
i.e. exactly the resolver's strict-`>` selection. -/
theorem head_pySortDesc (t : List Hit) : ∀ h : Hit,
    (pySortDesc (h :: t)).head? = some (bestOf h t) := by
  induction t with
  | nil => intro h; rfl
  | cons x xs ih =>
      intro h
      have hx := ih x
      cases hs : pySortDesc (x :: xs) with
      | nil => rw [hs] at hx; exact absurd hx (by simp)
      | cons b rest =>
          rw [hs] at hx
          simp only [List.head?_cons, Option.some.injEq] at hx
          subst hx
          show (insertDesc h (pySortDesc (x :: xs))).head? = some (bestOf h (x :: xs))
          rw [hs, insertDesc_cons]
          by_cases hge : h.score ≥ (bestOf x xs).score
          · rw [if_pos hge]
            simp only [List.head?_cons, Option.some.injEq]
            have hxh : ¬ (x.score > h.score) := by
              intro hgt
              have h1 : x.score ≤ (bestOf x xs).score := bestOf_score_seed xs x
              exact absurd (lt_of_lt_of_le hgt (le_trans h1 hge)) (lt_irrefl _)
            rw [bestOf_cons, if_neg hxh]
            refine (bestOf_eq_seed xs h ?_).symm
            intro y hy hgt
            have h2 : y.score ≤ (bestOf x xs).score := bestOf_score_mem xs x y hy
            exact absurd (lt_of_lt_of_le hgt (le_trans h2 hge)) (lt_irrefl _)
          · rw [if_neg hge]
            simp only [List.head?_cons, Option.some.injEq]
            have hlt : h.score < (bestOf x xs).score := lt_of_not_le hge
            by_cases hxh : x.score > h.score
            · rw [bestOf_cons, if_pos hxh]
            · rw [bestOf_cons, if_neg hxh]
              exact (bestOf_seed_irrelevant xs h x (le_of_not_lt hxh) hlt).symm

/-- The selected hit is one of the candidates. -/
theorem bestOf_mem (t : List Hit) : ∀ b : Hit, bestOf b t ∈ b :: t := by
  induction t with
  | nil => intro b; simp [bestOf]
  | cons x xs ih =>
      intro b
      rw [bestOf_cons]
      by_cases hgt : x.score > b.score
      · rw [if_pos hgt]
        rcases List.mem_cons.mp (ih x) with h | h
        · rw [h]
          exact List.mem_cons_of_mem _ (List.mem_cons_self _ _)
        · exact List.mem_cons_of_mem _ (List.mem_cons_of_mem _ h)
      · rw [if_neg hgt]
        rcases List.mem_cons.mp (ih b) with h | h
        · rw [h]
          exact List.mem_cons_self _ _
        · exact List.mem_cons_of_mem _ (List.mem_cons_of_mem _ h)

/-- A defined call requires a parsed gene id. -/
theorem alleleCall_gal_isSome (trunc : Hit → String) (chk : Bool) (h : Hit)
    (hc : (alleleCall trunc chk h).isSome) : (get_allele_and_locus h).isSome := by
  unfold alleleCall at hc
  cases hg : get_allele_and_locus h with
  | none => rw [hg] at hc; exact absurd hc (by simp)
  | some al => simp

/-- The single-locus loop is defined when every hit's call derivation is. -/
theorem runL_isSome (trunc : Hit → String) (chk : Bool) (xs : List Hit) :
    ∀ cur, (∀ x ∈ xs, (alleleCall trunc chk x).isSome) →
    (runL trunc chk cur xs).isSome := by
  induction xs with
  | nil => intro cur _; rfl
  | cons h t ih =>
      intro cur hall
      obtain ⟨c, hcc⟩ := Option.isSome_iff_exists.mp (hall h (List.mem_cons_self _ _))
      unfold alleleCall at hcc
      simp only [runL]
      cases hg : get_allele_and_locus h with
      | none => rw [hg] at hcc; exact absurd hcc (by simp)
      | some al =>
          obtain ⟨a, l⟩ := al
          rw [hg] at hcc
          dsimp only at hcc ⊢
          cases hm : markedAllele trunc chk h a with
          | none => rw [hm] at hcc; exact absurd hcc (by simp)
          | some m =>
              rw [hm] at hcc
              dsimp only at hcc ⊢
              have htail := fun x hx => hall x (List.mem_cons_of_mem _ hx)
              cases cur with
              | some sc =>
                  obtain ⟨s, cc⟩ := sc
                  dsimp only
                  by_cases hgt : h.score > s
                  · rw [if_pos hgt, hcc]
                    exact ih _ htail
                  · rw [if_neg hgt]
                    exact ih _ htail
              | none =>
                  dsimp only
                  rw [hcc]
                  exact ih _ htail

/-- The single-locus loop over a one-hit group. -/
theorem runL_single (trunc : Hit → String) (chk : Bool) (b : Hit) (c : String)
    (hc : alleleCall trunc chk b = some c) :
    runL trunc chk none [b] = some (some (b.score, c)) := by
  unfold alleleCall at hc
  simp only [runL]
  cases hg : get_allele_and_locus b with
  | none => rw [hg] at hc; exact absurd hc (by simp)
  | some al =>
      obtain ⟨a, l⟩ := al
      rw [hg] at hc
      dsimp only at hc ⊢
      cases hm : markedAllele trunc chk b a with
      | none => rw [hm] at hc; exact absurd hc (by simp)
      | some m =>
          rw [hm] at hc
          dsimp only at hc ⊢
          rw [hc]

/-- Unfolding equation for `alookup` on a cons. -/
theorem alookup_cons {β : Type} (p : String × β) (l : List (String × β)) (k : String) :
    alookup (p :: l) k = if p.1 = k then some p.2 else alookup l k := rfl

/-- Unfolding equation for `filterLocus` on a cons. -/
theorem filterLocus_cons (h : Hit) (t : List Hit) (L : String) :
    filterLocus (h :: t) L =
      if locusOf h = some L then h :: filterLocus t L else filterLocus t L := by
  simp only [filterLocus, List.filter_cons]
  by_cases hL : locusOf h = some L
  · rw [if_pos (by simp [hL]), if_pos hL]
  · rw [if_neg (by simp [hL]), if_neg hL]

/-- A key is absent from an association list iff its lookup fails. -/
theorem alookup_eq_none_iff {β : Type} (d : List (String × β)) (k : String) :
    alookup d k = none ↔ k ∉ d.map Prod.fst := by
  induction d with
  | nil => simp [alookup]
  | cons p rest ih =>
      rw [alookup_cons, List.map_cons]
      by_cases hp : p.1 = k
      · rw [if_pos hp]
        simp [hp]
      · rw [if_neg hp]
        rw [ih]
        simp only [List.mem_cons]
        constructor
        · intro hn hc
          rcases hc with he | hm
          · exact hp he.symm
          · exact hn hm
        · intro hn hm
          exact hn (Or.inr hm)

/-- Lookup after the reducer's in-place group append, at the appended key. -/
theorem alookup_map_append_self (d : List (String × List Hit)) (k : String) (h : Hit)
    (g : List Hit) (hg : alookup d k = some g) :
    alookup (d.map (fun p => if p.1 = k then (p.1, p.2 ++ [h]) else p)) k
      = some (g ++ [h]) := by
  induction d with
  | nil => simp [alookup] at hg
  | cons p rest ih =>
      rw [alookup_cons] at hg
      rw [List.map_cons, alookup_cons]
      by_cases hp : p.1 = k
      · rw [if_pos hp] at hg
        injection hg with hgg
        rw [if_pos hp]
        dsimp only
        rw [if_pos hp, hgg]
      · rw [if_neg hp] at hg
        rw [if_neg hp]
        rw [if_neg hp]
        exact ih hg

/-- Lookup after the reducer's in-place group append, at another key. -/
theorem alookup_map_append_ne (d : List (String × List Hit)) (k L : String) (h : Hit)
    (hne : L ≠ k) :
    alookup (d.map (fun p => if p.1 = k then (p.1, p.2 ++ [h]) else p)) L
      = alookup d L := by
  induction d with
  | nil => rfl
  | cons p rest ih =>
      rw [List.map_cons, alookup_cons, alookup_cons]
      by_cases hp : p.1 = k
      · have hq : ¬ (p.1 = L) := fun he => hne (by rw [← he]; exact hp)
        rw [if_pos hp]
        dsimp only
        rw [if_neg hq, if_neg hq]
        exact ih
      · rw [if_neg hp]
        by_cases hq : p.1 = L
        · rw [if_pos hq, if_pos hq]
        · rw [if_neg hq, if_neg hq]
          exact ih

/-- The in-place group append does not change the key list. -/
theorem keys_map_append (d : List (String × List Hit)) (k : String) (h : Hit) :
    (d.map (fun p => if p.1 = k then (p.1, p.2 ++ [h]) else p)).map Prod.fst
      = d.map Prod.fst := by
  induction d with
  | nil => rfl
  | cons p rest ih =>
      simp only [List.map_cons]
      by_cases hp : p.1 = k
      · rw [if_pos hp]
        dsimp only
        rw [ih]
      · rw [if_neg hp]
        rw [ih]

/-- `groupInsert` lookup at the inserted key, existing group. -/
theorem alookup_groupInsert_self_some (d : List (String × List Hit)) (k : String) (h : Hit)
    (g : List Hit) (hg : alookup d k = some g) :
    alookup (groupInsert d k h) k = some (g ++ [h]) := by
  simp only [groupInsert, hg]
  exact alookup_map_append_self d k h g hg

/-- `groupInsert` lookup at the inserted key, fresh group. -/
theorem alookup_groupInsert_self_none (d : List (String × List Hit)) (k : String) (h : Hit)
    (hg : alookup d k = none) :
    alookup (groupInsert d k h) k = some [h] := by
  simp only [groupInsert, hg]
  exact alookup_append_self d k [h] hg

/-- `groupInsert` lookup at any other key. -/
theorem alookup_groupInsert_ne (d : List (String × List Hit)) (k L : String) (h : Hit)
    (hne : L ≠ k) : alookup (groupInsert d k h) L = alookup d L := by
  cases hg : alookup d k with
  | some g =>
      simp only [groupInsert, hg]
      exact alookup_map_append_ne d k L h hne
  | none =>
      simp only [groupInsert, hg]
      exact alookup_append_ne d k L [h] hne

/-- Every member of a group after `groupInsert` was there before or is the
inserted hit. -/
theorem groupInsert_mem (d : List (String × List Hit)) (k : String) (h : Hit) :
    ∀ p ∈ groupInsert d k h, ∀ x ∈ p.2, (∃ q ∈ d, x ∈ q.2) ∨ x = h := by
  intro p hp x hx
  cases hg : alookup d k with
  | some g =>
      simp only [groupInsert, hg] at hp
      obtain ⟨q, hq, hfq⟩ := List.mem_map.mp hp
      by_cases hqk : q.1 = k
      · rw [if_pos hqk] at hfq
        rw [← hfq] at hx
        dsimp only at hx
        rcases List.mem_append.mp hx with hxm | hxh
        · exact Or.inl ⟨q, hq, hxm⟩
        · exact Or.inr (List.mem_singleton.mp hxh)
      · rw [if_neg hqk] at hfq
        rw [← hfq] at hx
        exact Or.inl ⟨q, hq, hx⟩
  | none =>
      simp only [groupInsert, hg] at hp
      rcases List.mem_append.mp hp with hpd | hpn
      · exact Or.inl ⟨p, hpd, hx⟩
      · rw [List.mem_singleton.mp hpn] at hx
        dsimp only at hx
        exact Or.inr (List.mem_singleton.mp hx)

/-- `groupInsert` keeps every group nonempty. -/
theorem groupInsert_ne_nil (d : List (String × List Hit)) (k : String) (h : Hit)
    (hne0 : ∀ p ∈ d, p.2 ≠ []) : ∀ p ∈ groupInsert d k h, p.2 ≠ [] := by
  intro p hp
  cases hg : alookup d k with
  | some g =>
      simp only [groupInsert, hg] at hp
      obtain ⟨q, hq, hfq⟩ := List.mem_map.mp hp
      by_cases hqk : q.1 = k
      · rw [if_pos hqk] at hfq
        rw [← hfq]
        simp
      · rw [if_neg hqk] at hfq
        rw [← hfq]
        exact hne0 q hq
  | none =>
      simp only [groupInsert, hg] at hp
      rcases List.mem_append.mp hp with hpd | hpn
      · exact hne0 p hpd
      · rw [List.mem_singleton.mp hpn]
        simp

/-- `groupInsert` keeps every group member at its key's locus. -/
theorem groupInsert_loc (d : List (String × List Hit)) (k : String) (h : Hit)
    (hloc0 : ∀ p ∈ d, ∀ x ∈ p.2, locusOf x = some p.1) (hk : locusOf h = some k) :
    ∀ p ∈ groupInsert d k h, ∀ x ∈ p.2, locusOf x = some p.1 := by
  intro p hp x hx
  cases hg : alookup d k with
  | some g =>
      simp only [groupInsert, hg] at hp
      obtain ⟨q, hq, hfq⟩ := List.mem_map.mp hp
      by_cases hqk : q.1 = k
      · rw [if_pos hqk] at hfq
        rw [← hfq] at hx ⊢
        dsimp only at hx ⊢
        rcases List.mem_append.mp hx with hxm | hxh
        · exact hloc0 q hq x hxm
        · rw [List.mem_singleton.mp hxh, hk, hqk]
      · rw [if_neg hqk] at hfq
        rw [← hfq] at hx ⊢
        exact hloc0 q hq x hx
  | none =>
      simp only [groupInsert, hg] at hp
      rcases List.mem_append.mp hp with hpd | hpn
      · exact hloc0 p hpd x hx
      · rw [List.mem_singleton.mp hpn] at hx ⊢
        dsimp only at hx ⊢
        rw [List.mem_singleton.mp hx, hk]

/-- `groupInsert` keeps the key list duplicate-free. -/
theorem groupInsert_keys_nodup (d : List (String × List Hit)) (k : String) (h : Hit)
    (hnd : (d.map Prod.fst).Nodup) : ((groupInsert d k h).map Prod.fst).Nodup := by
  cases hg : alookup d k with
  | some g =>
      simp only [groupInsert, hg]
      rw [keys_map_append]
      exact hnd
  | none =>
      simp only [groupInsert, hg]
      rw [List.map_append]
      simp only [List.map_cons, List.map_nil]
      rw [List.nodup_append]
      refine ⟨hnd, List.nodup_singleton k, ?_⟩
      intro a ha hak
      rw [List.mem_singleton] at hak
      subst hak
      exact (alookup_eq_none_iff d a).mp hg ha

/-- The grouping loop is defined when every gene id parses. -/
theorem groupLoop_isSome (hits : List Hit)
    (hgal : ∀ h ∈ hits, (get_allele_and_locus h).isSome) :
    ∀ d, (groupLoop hits d).isSome := by
  induction hits with
  | nil => intro d; rfl
  | cons h t ih =>
      intro d
      simp only [groupLoop]
      cases hg : get_allele_and_locus h with
      | none =>
          have hs := hgal h (List.mem_cons_self _ _)
          rw [hg] at hs
          exact absurd hs (by simp)
      | some al =>
          obtain ⟨a, k⟩ := al
          exact ih (fun x hx => hgal x (List.mem_cons_of_mem _ hx)) (groupInsert d k h)

/-- How each locus entry of the grouping dict evolves over the grouping
loop. -/
theorem groupLoop_lookup (hits : List Hit) :
    ∀ d d', groupLoop hits d = some d' → ∀ L,
    alookup d' L = optGroup (alookup d L) (filterLocus hits L) := by
  induction hits with
  | nil =>
      intro d d' hrun L
      simp only [groupLoop, Option.some.injEq] at hrun
      subst hrun
      have hf : filterLocus ([] : List Hit) L = [] := rfl
      rw [hf]
      cases halo : alookup d L with
      | some g => simp [optGroup]
      | none => rfl
  | cons h t ih =>
      intro d d' hrun L
      simp only [groupLoop] at hrun
      cases hg : get_allele_and_locus h with
      | none => rw [hg] at hrun; exact absurd hrun (by simp)
      | some al =>
          obtain ⟨a, k⟩ := al
          rw [hg] at hrun
          dsimp only at hrun
          have hlo : locusOf h = some k := by simp [locusOf, hg]
          rw [ih (groupInsert d k h) d' hrun L, filterLocus_cons]
          by_cases hLk : L = k
          · subst hLk
            rw [if_pos hlo]
            cases halo : alookup d L with
            | some g =>
                rw [alookup_groupInsert_self_some d L h g halo]
                simp [optGroup]
            | none =>
                rw [alookup_groupInsert_self_none d L h halo]
                simp [optGroup]
          · have hcond : ¬ (locusOf h = some L) := by
              rw [hlo]
              intro he
              injection he with he2
              exact hLk he2.symm
            rw [if_neg hcond, alookup_groupInsert_ne d k L h hLk]

/-- Invariants of the grouping loop: nonempty groups, members at their
key's locus, duplicate-free keys, and member provenance. -/
theorem groupLoop_props (hits : List Hit) :
    ∀ d d', groupLoop hits d = some d' →
    (∀ p ∈ d, p.2 ≠ []) → (∀ p ∈ d, ∀ x ∈ p.2, locusOf x = some p.1) →
    ((d.map Prod.fst).Nodup) →
    (∀ p ∈ d', p.2 ≠ []) ∧ (∀ p ∈ d', ∀ x ∈ p.2, locusOf x = some p.1) ∧
    ((d'.map Prod.fst).Nodup) ∧
    (∀ p ∈ d', ∀ x ∈ p.2, (∃ q ∈ d, x ∈ q.2) ∨ x ∈ hits) := by
  induction hits with
  | nil =>
      intro d d' hrun h1 h2 h3
      simp only [groupLoop, Option.some.injEq] at hrun
      subst hrun
      exact ⟨h1, h2, h3, fun p hp x hx => Or.inl ⟨p, hp, hx⟩⟩
  | cons h t ih =>
      intro d d' hrun h1 h2 h3
      simp only [groupLoop] at hrun
      cases hg : get_allele_and_locus h with
      | none => rw [hg] at hrun; exact absurd hrun (by simp)
      | some al =>
          obtain ⟨a, k⟩ := al
          rw [hg] at hrun
          dsimp only at hrun
          have hlo : locusOf h = some k := by simp [locusOf, hg]
          obtain ⟨g1, g2, g3, g4⟩ := ih (groupInsert d k h) d' hrun
            (groupInsert_ne_nil d k h h1) (groupInsert_loc d k h h2 hlo)
            (groupInsert_keys_nodup d k h h3)
          refine ⟨g1, g2, g3, ?_⟩
          intro p hp x hx
          rcases g4 p hp x hx with ⟨q, hq, hxq⟩ | hxt
          · rcases groupInsert_mem d k h q hq x hxq with hin | hxh
            · exact Or.inl hin
            · rw [hxh]
              exact Or.inr (List.mem_cons_self _ _)
          · exact Or.inr (List.mem_cons_of_mem _ hxt)

/-- `sorted(locus_hits, ...)[0]` per group: the reducer's output is, per
locus, exactly the first maximal-score member of that locus's group. -/
theorem sortedHeads_spec : ∀ d : List (String × List Hit),
    (∀ p ∈ d, p.2 ≠ []) → (∀ p ∈ d, ∀ x ∈ p.2, locusOf x = some p.1) →
    ((d.map Prod.fst).Nodup) →
    ∃ kept, sortedHeads d = some kept ∧ (∀ x ∈ kept, ∃ p ∈ d, x ∈ p.2) ∧
      ∀ L, filterLocus kept L = bestGroup (alookup d L) := by
  intro d
  induction d with
  | nil =>
      intro _ _ _
      exact ⟨[], rfl, by simp, fun L => rfl⟩
  | cons p rest ih =>
      intro hne0 hloc0 hnd0
      obtain ⟨k, gl⟩ := p
      cases gl with
      | nil => exact absurd rfl (hne0 (k, []) (List.mem_cons_self _ _))
      | cons y ys =>
          obtain ⟨kr, hkr, hmemr, hfilr⟩ := ih
            (fun q hq => hne0 q (List.mem_cons_of_mem _ hq))
            (fun q hq => hloc0 q (List.mem_cons_of_mem _ hq))
            (by rw [List.map_cons] at hnd0; exact (List.nodup_cons.mp hnd0).2)
          have hknotin : k ∉ rest.map Prod.fst := by
            rw [List.map_cons] at hnd0
            exact (List.nodup_cons.mp hnd0).1
          have hhead := head_pySortDesc ys y
          have hsh : sortedHeads ((k, y :: ys) :: rest) = some (bestOf y ys :: kr) := by
            simp only [sortedHeads]
            rw [hhead]
            dsimp only
            rw [hkr]
            rfl
          have hlocB : locusOf (bestOf y ys) = some k :=
            hloc0 (k, y :: ys) (List.mem_cons_self _ _) _ (bestOf_mem ys y)
          refine ⟨bestOf y ys :: kr, hsh, ?_, ?_⟩
          · intro x hx
            rcases List.mem_cons.mp hx with hxb | hxr
            · exact ⟨(k, y :: ys), List.mem_cons_self _ _, by rw [hxb]; exact bestOf_mem ys y⟩
            · obtain ⟨q, hq, hxq⟩ := hmemr x hxr
              exact ⟨q, List.mem_cons_of_mem _ hq, hxq⟩
          · intro L
            rw [filterLocus_cons]
            have halk := alookup_cons (k, y :: ys) rest L
            by_cases hLk : k = L
            · subst hLk
              rw [halk, if_pos rfl, if_pos hlocB]
              have hkr0 : filterLocus kr k = [] := by
                rw [hfilr k, (alookup_eq_none_iff rest k).mpr hknotin]
                rfl
              rw [hkr0]
              rfl
            · have hcond : ¬ (locusOf (bestOf y ys) = some L) := by
                rw [hlocB]
                intro he
                injection he with he2
                exact hLk he2
              rw [halk, if_neg hLk, if_neg hcond]
              exact hfilr L

/-- `keep_only_one_hit_per_locus`: totality, provenance, and the per-locus
content of its output. -/
theorem keep_only_one_spec (hits : List Hit)
    (hgal : ∀ h ∈ hits, (get_allele_and_locus h).isSome) :
    ∃ kept, keep_only_one_hit_per_locus hits = some kept ∧
      (∀ x ∈ kept, x ∈ hits) ∧
      ∀ L, filterLocus kept L = bestGroup (optGroup none (filterLocus hits L)) := by
  obtain ⟨d', hd'⟩ := Option.isSome_iff_exists.mp (groupLoop_isSome hits hgal [])
  obtain ⟨g1, g2, g3, g4⟩ := groupLoop_props hits [] d' hd'
    (fun p hp => absurd hp (List.not_mem_nil p))
    (fun p hp => absurd hp (List.not_mem_nil p))
    (by simp)
  obtain ⟨kept, hk, hmem, hfil⟩ := sortedHeads_spec d' g1 g2 g3
  refine ⟨kept, ?_, ?_, ?_⟩
  · simp only [keep_only_one_hit_per_locus, hd']
    exact hk
  · intro x hx
    obtain ⟨p, hp, hxp⟩ := hmem x hx
    rcases g4 p hp x hxp with ⟨q, hq, _⟩ | hxh
    · exact absurd hq (List.not_mem_nil q)
    · exact hxh
  · intro L
    have hlk := groupLoop_lookup hits [] d' hd' L
    have h0 : alookup ([] : List (String × List Hit)) L = none := rfl
    rw [h0] at hlk
    rw [hfil L, hlk]

/-- Under the loop invariant that `best_score` and `best_allele` share their
keys, the `best_allele` entry is the second component of the combined
entry. -/
theorem pairOf_snd (bs : List (String × ℚ)) (ba : List (String × String))
    (hsync : ∀ L, (alookup bs L).isSome ↔ (alookup ba L).isSome) (L : String) :
    alookup ba L = (pairOf bs ba L).map Prod.snd := by
  unfold pairOf
  cases hb : alookup bs L with
  | some s =>
      cases hc : alookup ba L with
      | some c => rfl
      | none =>
          have hh := (hsync L).mp (by rw [hb]; rfl)
          rw [hc] at hh
          exact absurd hh (by simp)
  | none =>
      cases hc : alookup ba L with
      | none => rfl
      | some c =>
          have hh := (hsync L).mpr (by rw [hc]; rfl)
          rw [hb] at hh
          exact absurd hh (by simp)

/-- C6 counterexample: as stated ("for every hit list") the claim is false.
With hits whose gene ids are `abc` (score 1) and `abc_2` (score 5), both at
locus `abc`, multi-hit mode feeds the score-1 hit to the resolver first,
where `"abc".split('_')[1]` raises IndexError (modelled as `none`), while
the reducer first discards that hit in favour of the score-5 hit, whose
call succeeds — so one mode errors and the other assigns an ST. -/
theorem claim_C6_counterexample :
    mlst_blast_model (fun _ => "") ["abc"] [("2", "1")] []
      [⟨"abc", 100, 10, 10, 1⟩, ⟨"abc_2", 100, 10, 10, 5⟩] 0 "no" false false true
      = none ∧
    mlst_blast_model (fun _ => "") ["abc"] [("2", "1")] []
      [⟨"abc", 100, 10, 10, 1⟩, ⟨"abc_2", 100, 10, 10, 5⟩] 0 "no" false false false
      = some ("1", ["2"], "") := by
  exact ⟨rfl, by decide⟩

/-- C6 (amended): whenever every hit's call derivation succeeds (its gene id
parses and its marked allele has an underscore-separated second field), the
output with multi-hit mode active (reducer bypassed) equals the output with
the reducer applied first: per locus, the reducer keeps the first
maximal-score hit in input order, which is exactly the hit the resolver's
strict-greater-than best-score tracking selects. -/
theorem claim_C6_reducer_equivalence (trunc : Hit → String) (header : List String)
    (alleles_to_st st_to_info : List (String × String)) (hits : List Hit)
    (max_missing : Int) (info_arg : String) (chk report_incomplete : Bool)
    (hcall : ∀ h ∈ hits, (alleleCall trunc chk h).isSome) :
    mlst_blast_model trunc header alleles_to_st st_to_info hits max_missing info_arg
      chk report_incomplete true
    = mlst_blast_model trunc header alleles_to_st st_to_info hits max_missing info_arg
      chk report_incomplete false := by
  have hgal : ∀ h ∈ hits, (get_allele_and_locus h).isSome :=
    fun h hh => alleleCall_gal_isSome trunc chk h (hcall h hh)
  obtain ⟨kept, hkept, hkmem, hkfil⟩ := keep_only_one_spec hits hgal
  have hckept : ∀ h ∈ kept, (alleleCall trunc chk h).isSome :=
    fun h hh => hcall h (hkmem h hh)
  obtain ⟨st1, hst1⟩ :=
    Option.isSome_iff_exists.mp (resolverLoop_isSome trunc chk hits [] [] hcall)
  obtain ⟨bs1, ba1⟩ := st1
  obtain ⟨st2, hst2⟩ :=
    Option.isSome_iff_exists.mp (resolverLoop_isSome trunc chk kept [] [] hckept)
  obtain ⟨bs2, ba2⟩ := st2
  have hsync0 : ∀ L, (alookup ([] : List (String × ℚ)) L).isSome
      ↔ (alookup ([] : List (String × String)) L).isSome := fun L => Iff.rfl
  obtain ⟨hsync1, hrun1⟩ := resolverLoop_runL trunc chk hits [] [] bs1 ba1 hst1 hsync0
  obtain ⟨hsync2, hrun2⟩ := resolverLoop_runL trunc chk kept [] [] bs2 ba2 hst2 hsync0
  have hpair : ∀ L, pairOf bs1 ba1 L = pairOf bs2 ba2 L := by
    intro L
    have e1 := hrun1 L
    have e2 := hrun2 L
    have hp0 : pairOf [] [] L = none := rfl
    rw [hp0] at e1 e2
    rw [hkfil L] at e2
    cases hfl : filterLocus hits L with
    | nil =>
        rw [hfl] at e1 e2
        have e1' : some (none : Option (ℚ × String)) = some (pairOf bs1 ba1 L) := e1
        have e2' : some (none : Option (ℚ × String)) = some (pairOf bs2 ba2 L) := e2
        injection e1' with h1
        injection e2' with h2
        rw [← h1, ← h2]
    | cons y ys =>
        rw [hfl] at e1 e2
        have hbg : bestGroup (optGroup none (y :: ys)) = [bestOf y ys] := rfl
        rw [hbg] at e2
        obtain ⟨c1, hc1, hr1⟩ := runL_none_best trunc chk y ys (pairOf bs1 ba1 L) e1
        rw [runL_single trunc chk (bestOf y ys) c1 hc1] at e2
        injection e2 with e2'
        exact hr1.trans e2'
  have hba : ∀ L, alookup ba1 L = alookup ba2 L := by
    intro L
    rw [pairOf_snd bs1 ba1 hsync1 L, pairOf_snd bs2 ba2 hsync2 L, hpair L]
  have hT : mlst_blast_model trunc header alleles_to_st st_to_info hits max_missing
      info_arg chk report_incomplete true
      = match get_best_allele_per_locus trunc hits chk with
        | some best_allele =>
            assignST header best_allele alleles_to_st st_to_info max_missing info_arg
              report_incomplete
        | none => none := rfl
  have hF : mlst_blast_model trunc header alleles_to_st st_to_info hits max_missing
      info_arg chk report_incomplete false
      = match keep_only_one_hit_per_locus hits with
        | none => none
        | some hits2 =>
            match get_best_allele_per_locus trunc hits2 chk with
            | some best_allele =>
                assignST header best_allele alleles_to_st st_to_info max_missing info_arg
                  report_incomplete
            | none => none := rfl
  have hg1 : get_best_allele_per_locus trunc hits chk = some ba1 := by
    unfold get_best_allele_per_locus
    rw [hst1]
    rfl
  have hg2 : get_best_allele_per_locus trunc kept chk = some ba2 := by
    unfold get_best_allele_per_locus
    rw [hst2]
    rfl
  rw [hT, hF, hkept, hg1]
  dsimp only
  rw [hg2]
  dsimp only
  have hcongr : bestSTLists ba1 header = bestSTLists ba2 header :=
    bestSTLists_congr ba1 ba2 header (fun l _ => hba l)
  simp only [assignST]
  rw [hcongr]

/-- C6 witness: a concrete two-hit input whose call derivations all succeed,
on which the theorem applies. -/
theorem claim_C6_witness :
    (∀ h ∈ [(⟨"mlst__gapA__gapA_2", 100, 10, 10, 5⟩ : Hit), ⟨"mlst__gapA__gapA_3", 100, 10, 10, 1⟩],
      (alleleCall (fun _ => "") false h).isSome) ∧
    mlst_blast_model (fun _ => "") ["gapA"] [("2", "7")] []
      [⟨"mlst__gapA__gapA_2", 100, 10, 10, 5⟩, ⟨"mlst__gapA__gapA_3", 100, 10, 10, 1⟩]
      0 "no" false false true
    = mlst_blast_model (fun _ => "") ["gapA"] [("2", "7")] []
      [⟨"mlst__gapA__gapA_2", 100, 10, 10, 5⟩, ⟨"mlst__gapA__gapA_3", 100, 10, 10, 1⟩]
      0 "no" false false false :=
  ⟨by decide,
   claim_C6_reducer_equivalence (fun _ => "") ["gapA"] [("2", "7")] [] _ 0 "no"
     false false (by decide)⟩

end Kleborate


